import Mathlib

/-
Verification of the RGATreeList core of pkg/document/json/rga_tree_list.go.

The Go structure is embedded shallowly:

* node identity is an index into an append-only `arena` of elements
  (a node and the element it wraps share the slot; `MoveAfter` re-wraps the
  element in a fresh node, i.e. a fresh arena slot, exactly as the Go code
  allocates a fresh `RGATreeListNode`);
* the doubly linked list and the splay tree keep the same in-order node
  sequence at all times, represented by the single list `order`
  (the sentinel head node has id 0 and sits at the front);
* the Go map `nodeMapByCreatedAt` is an association list with
  replace-on-insert and delete-by-key semantics;
* `panic` (unknown identifier) and nil-pointer dereference are the two
  error outcomes of the `Except Err` monad.
-/

namespace Yorkie

/-- Logical timestamps (`time.Ticket`): an opaque totally ordered clock with a
strict `After` comparison and a stable map key.  `Nat` realises the contract;
`time.InitialTicket` is the minimum. -/
abbrev Ticket := Nat

def initialTicket : Ticket := 0

/-- `t.After(other)` of the Ticket contract: strict, irreflexive, total. -/
def tafter (t other : Ticket) : Bool := other < t

/-- The Element capability consumed by the array: creation ticket, optional
tombstone ticket, optional move ticket, and a marshalable value. -/
structure Elem where
  value : Int
  createdAt : Ticket
  removedAt : Option Ticket
  movedAt : Option Ticket
deriving DecidableEq

def defaultElem : Elem := { value := 0, createdAt := 0, removedAt := none, movedAt := none }

/-- `RGATreeListNode.PositionedAt`: the move ticket if set, else the creation
ticket. -/
def positionedAt (e : Elem) : Ticket :=
  match e.movedAt with
  | some m => m
  | none => e.createdAt

/-- `RGATreeListNode.isRemoved`: a node is a tombstone when its element has a
removal ticket. -/
def isRemoved (e : Elem) : Bool := e.removedAt.isSome

/-- `Element.Marshal` for the primitive values stored in tests. -/
def elemMarshal (e : Elem) : String := toString e.value

/-- Modelled from the spec: the Element implementation (`Primitive.Remove`) is
outside this file's source.  Per the spec, `applyRemoval(Ticket) -> bool`
returns whether the call changed tombstone state, and `removedAt` is set
monotonically: a removal request with an earlier-or-equal ticket than a
previously applied one is rejected. -/
def elemRemove (e : Elem) (deletedAt : Ticket) : Elem × Bool :=
  match e.removedAt with
  | none => ({ e with removedAt := some deletedAt }, true)
  | some r =>
    if tafter deletedAt r then ({ e with removedAt := some deletedAt }, true)
    else (e, false)

/-- Error outcomes of the Go code: the unknown-identifier panic
(`fail to find the given createdAt`) and a nil-pointer dereference. -/
inductive Err where
  | unknownId : Ticket → Err
  | nilDeref : Err
deriving DecidableEq

/-- The RGATreeList state.  `arena` holds each node's element by node id,
`order` is the shared in-order sequence of the linked list and of the index
tree (sentinel id 0 first), `lastId` mirrors the `last` pointer, `size` the
live counter, and `byCreated` the `nodeMapByCreatedAt` map. -/
@[ext]
structure RGATreeList where
  arena : List Elem
  order : List Nat
  lastId : Nat
  size : Int
  byCreated : List (Ticket × Nat)
deriving DecidableEq

def elemOf (a : RGATreeList) (id : Nat) : Elem := a.arena.getD id defaultElem

/-- Go map lookup on the association list. -/
def mapLookup : List (Ticket × Nat) → Ticket → Option Nat
  | [], _ => none
  | (k, v) :: rest, t => if k = t then some v else mapLookup rest t

/-- Go map key deletion. -/
def mapErase (m : List (Ticket × Nat)) (k : Ticket) : List (Ticket × Nat) :=
  m.filter (fun p => p.1 != k)

/-- Go map assignment (replaces any previous binding of the key). -/
def mapInsert (m : List (Ticket × Nat)) (k : Ticket) (v : Nat) : List (Ticket × Nat) :=
  (k, v) :: mapErase m k

/-- The part of the node sequence strictly after (the first occurrence of)
a node: the chain of `next` pointers from that node. -/
def suffixAfter : List Nat → Nat → List Nat
  | [], _ => []
  | x :: xs, i => if x = i then xs else suffixAfter xs i

/-- The part of the node sequence strictly before a node. -/
def idsBefore : List Nat → Nat → List Nat
  | [], _ => []
  | x :: xs, i => if x = i then [] else x :: idsBefore xs i

/-- Walk the sequence holding the previously visited node, looking for `i`. -/
def prevGo (i : Nat) : Nat → List Nat → Option Nat
  | _, [] => none
  | prv, x :: xs => if x = i then some prv else prevGo i x xs

/-- The `prev` pointer of a node: its predecessor in the sequence, `none` for
the front node (whose `prev` is nil). -/
def prevIdOf (l : List Nat) (i : Nat) : Option Nat :=
  match l with
  | [] => none
  | x :: xs => if x = i then none else prevGo i x xs

/-- Link a fresh node right after an existing one
(`newRGATreeListNodeAfter` plus `splay.Tree.InsertAfter`). -/
def insertAfterId : List Nat → Nat → Nat → List Nat
  | [], _, _ => []
  | x :: xs, p, n => if x = p then x :: n :: xs else x :: insertAfterId xs p n

/-- Unlink a node (`release`'s pointer surgery plus `splay.Tree.Delete`). -/
def eraseId : List Nat → Nat → List Nat
  | [], _ => []
  | x :: xs, i => if x = i then xs else x :: eraseId xs i

/-- The sentinel element: a zero primitive carrying the initial ticket,
tombstoned at construction. -/
def sentinelElem : Elem :=
  { value := 0, createdAt := initialTicket, removedAt := some initialTicket, movedAt := none }

/-- `NewRGATreeList`: the sentinel alone in the list, the tree and the map. -/
def NewRGATreeList : RGATreeList :=
  { arena := [sentinelElem]
    order := [0]
    lastId := 0
    size := 0
    byCreated := [(initialTicket, 0)] }

/-- The while loop of `findNextBeforeExecutedAt`: starting at a node, advance
while the next node exists and is positioned strictly after `executedAt`. -/
def scanForward (a : RGATreeList) (executedAt : Ticket) : Nat → List Nat → Nat
  | cur, [] => cur
  | cur, nxt :: rest =>
    if tafter (positionedAt (elemOf a nxt)) executedAt then scanForward a executedAt nxt rest
    else cur

/-- `findNextBeforeExecutedAt`: resolve the creation ticket through the map
(unknown-identifier panic if absent) and run the forward scan. -/
def findNextBeforeExecutedAt (a : RGATreeList) (createdAt executedAt : Ticket) :
    Except Err Nat :=
  match mapLookup a.byCreated createdAt with
  | none => .error (.unknownId createdAt)
  | some id => .ok (scanForward a executedAt id (suffixAfter a.order id))

/-- `insertAfter`: place the new node right after the scan result, update the
`last` pointer when the insertion point was the tail, register the node in the
map under its element's creation ticket, increment the live counter. -/
def insertAfter (a : RGATreeList) (prevCreatedAt : Ticket) (value : Elem)
    (executedAt : Ticket) : Except Err RGATreeList :=
  match findNextBeforeExecutedAt a prevCreatedAt executedAt with
  | .error e => .error e
  | .ok prevId =>
    .ok { arena := a.arena ++ [value]
          order := insertAfterId a.order prevId a.arena.length
          lastId := if prevId = a.lastId then a.arena.length else a.lastId
          size := a.size + 1
          byCreated := mapInsert a.byCreated value.createdAt a.arena.length }

/-- `release`: unlink a node from list, tree and map; moving the `last`
pointer back when the node was the tail; the live counter drops only when the
node was still live.  Releasing the front node dereferences its nil `prev`. -/
def release (a : RGATreeList) (id : Nat) : Except Err RGATreeList :=
  match prevIdOf a.order id with
  | none => .error .nilDeref
  | some p =>
    .ok { arena := a.arena
          order := eraseId a.order id
          lastId := if a.lastId = id then p else a.lastId
          size := if isRemoved (elemOf a id) then a.size else a.size - 1
          byCreated := mapErase a.byCreated (elemOf a id).createdAt }

def RGATreeList.Add (a : RGATreeList) (elem : Elem) : Except Err RGATreeList :=
  insertAfter a (elemOf a a.lastId).createdAt elem elem.createdAt

def RGATreeList.InsertAfter (a : RGATreeList) (prevCreatedAt : Ticket) (elem : Elem) :
    Except Err RGATreeList :=
  insertAfter a prevCreatedAt elem elem.createdAt

def RGATreeList.Nodes (a : RGATreeList) : List Nat := suffixAfter a.order 0

def RGATreeList.LastCreatedAt (a : RGATreeList) : Ticket := (elemOf a a.lastId).createdAt

def RGATreeList.Len (a : RGATreeList) : Int := a.size

/-- Modelled from the spec: the splay package is outside this file's source.
The order-statistic rank query returns the node at the given rank among live
nodes together with an offset inside that node; a live node weighs 1, a
tombstone 0, and the query is answered from the (weight-summed) in-order
sequence. -/
def findByIdx (a : RGATreeList) : List Nat → Nat → Nat × Nat
  | [], idx => (0, idx)
  | [x], idx => (x, idx)
  | x :: y :: rest, idx =>
    let w : Nat := if isRemoved (elemOf a x) then 0 else 1
    if idx ≤ w then (x, idx) else findByIdx a (y :: rest) (idx - w)

/-- The tombstone-skipping walk of `Get`: step to `next` repeatedly until a
live node; `none` models running off the end (nil dereference). -/
def nextLive (a : RGATreeList) : List Nat → Option Nat
  | [] => none
  | i :: rest => if isRemoved (elemOf a i) then nextLive a rest else some i

/-- `Get`: rank query, then, when the query answered the sentinel at index 0
or with a nonzero offset, walk forward past tombstones. -/
def RGATreeList.Get (a : RGATreeList) (idx : Nat) : Option Nat :=
  let r := findByIdx a a.order idx
  if idx = 0 ∧ r.1 = 0 then nextLive a (suffixAfter a.order r.1)
  else if 0 < r.2 then nextLive a (suffixAfter a.order r.1)
  else some r.1

/-- `DeleteByCreatedAt`: resolve, apply the element removal, and on a
state-changing removal splay the node (which leaves the in-order sequence
unchanged) and decrement the live counter. -/
def RGATreeList.DeleteByCreatedAt (a : RGATreeList) (createdAt deletedAt : Ticket) :
    Except Err RGATreeList :=
  match mapLookup a.byCreated createdAt with
  | none => .error (.unknownId createdAt)
  | some id =>
    let e := elemOf a id
    let alreadyRemoved := isRemoved e
    let r := elemRemove e deletedAt
    let a1 : RGATreeList := { a with arena := a.arena.set id r.1 }
    if r.2 && !alreadyRemoved then .ok { a1 with size := a1.size - 1 } else .ok a1

/-- `Delete`: resolve the index through `Get`, then tombstone. -/
def RGATreeList.Delete (a : RGATreeList) (idx : Nat) (deletedAt : Ticket) :
    Except Err RGATreeList :=
  match a.Get idx with
  | none => .error .nilDeref
  | some id => a.DeleteByCreatedAt (elemOf a id).createdAt deletedAt

/-- The last-writer-wins guard of `MoveAfter`. -/
def moveGuard (e : Elem) (executedAt : Ticket) : Bool :=
  match e.movedAt with
  | none => true
  | some m => tafter executedAt m

/-- `MoveAfter`: resolve both tickets, and when the guard passes, release the
node, re-insert its element after the prev node's creation ticket with
`executedAt` as ordering ticket, then set the element's move ticket (the
element is now wrapped by the freshly allocated node). -/
def RGATreeList.MoveAfter (a : RGATreeList) (prevCreatedAt createdAt executedAt : Ticket) :
    Except Err RGATreeList :=
  match mapLookup a.byCreated prevCreatedAt with
  | none => .error (.unknownId prevCreatedAt)
  | some prevId =>
    match mapLookup a.byCreated createdAt with
    | none => .error (.unknownId createdAt)
    | some id =>
      let e := elemOf a id
      if moveGuard e executedAt then
        match release a id with
        | .error err => .error err
        | .ok a1 =>
          match insertAfter a1 (elemOf a prevId).createdAt e executedAt with
          | .error err => .error err
          | .ok a2 =>
            .ok { a2 with
                  arena := a2.arena.set a1.arena.length { e with movedAt := some executedAt } }
      else .ok a

/-- The backward walk of `FindPrevCreatedAt` over the predecessors of a node
(nearest first): stop at the sentinel or at a live node. -/
def walkPrev (a : RGATreeList) : List Nat → Option Nat
  | [] => none
  | i :: rest => if i = 0 || !isRemoved (elemOf a i) then some i else walkPrev a rest

/-- `FindPrevCreatedAt`: resolve, then walk `prev` pointers until the sentinel
or a live node, returning that node's creation ticket. -/
def RGATreeList.FindPrevCreatedAt (a : RGATreeList) (createdAt : Ticket) :
    Except Err Ticket :=
  match mapLookup a.byCreated createdAt with
  | none => .error (.unknownId createdAt)
  | some id =>
    match walkPrev a (idsBefore a.order id).reverse with
    | none => .error .nilDeref
    | some i => .ok (elemOf a i).createdAt

/-- `purge`: resolve the element's node and release it. -/
def RGATreeList.purge (a : RGATreeList) (elem : Elem) : Except Err RGATreeList :=
  match mapLookup a.byCreated elem.createdAt with
  | none => .error (.unknownId elem.createdAt)
  | some id => release a id

/-- The body of `Marshal`'s loop: live elements render their marshal output,
and a separating comma follows every rendered element other than the node the
`last` pointer designates. -/
def marshalLoop (a : RGATreeList) : List Nat → String
  | [] => ""
  | i :: rest =>
    (if isRemoved (elemOf a i) then ""
     else elemMarshal (elemOf a i) ++ (if i ≠ a.lastId then "," else "")) ++
    marshalLoop a rest

/-- `Marshal`: bracketed rendering of the nodes after the sentinel. -/
def RGATreeList.Marshal (a : RGATreeList) : String :=
  "[" ++ marshalLoop a (suffixAfter a.order 0) ++ "]"

/-- Number of live nodes among the listed node ids. -/
def liveIds (a : RGATreeList) (l : List Nat) : Nat :=
  l.countP (fun i => !isRemoved (elemOf a i))

/-- The element sequence of the list in physical order. -/
def listElems (a : RGATreeList) : List Elem := a.order.map (elemOf a)

/-- The conflict-resolution placement rule, abstractly, on element sequences:
walk past the elements positioned strictly after the ordering ticket and put
the new element in front of the remainder. -/
def absInsE (t : Ticket) (v : Elem) : List Elem → List Elem
  | [] => [v]
  | e :: rest => if tafter (positionedAt e) t then e :: absInsE t v rest else v :: e :: rest

/-- Well-formedness of a list state, as maintained by the operations: the
sentinel heads the sequence, node ids are distinct arena slots, the map is
sound and complete for the linked nodes, the sentinel carries the initial
ticket and is tombstoned, and the live counter counts the live nodes. -/
def WF (a : RGATreeList) : Prop :=
  a.order.head? = some 0 ∧
  a.order.Nodup ∧
  (∀ i ∈ a.order, i < a.arena.length) ∧
  (∀ p ∈ a.byCreated, p.2 ∈ a.order ∧ (elemOf a p.2).createdAt = p.1) ∧
  (∀ i ∈ a.order, mapLookup a.byCreated (elemOf a i).createdAt = some i) ∧
  (elemOf a 0).createdAt = initialTicket ∧
  isRemoved (elemOf a 0) = true ∧
  a.size = (liveIds a a.order : Int)

instance (a : RGATreeList) : Decidable (WF a) := by
  unfold WF
  infer_instance

instance {ε α : Type} [DecidableEq ε] [DecidableEq α] : DecidableEq (Except ε α) := fun x y =>
  match x, y with
  | .ok a, .ok b => decidable_of_iff (a = b) (by simp)
  | .error a, .error b => decidable_of_iff (a = b) (by simp)
  | .ok _, .error _ => isFalse (fun h => Except.noConfusion h)
  | .error _, .ok _ => isFalse (fun h => Except.noConfusion h)

/-- A sample element with creation ticket 1. -/
def sampleElem1 : Elem := { value := 5, createdAt := 1, removedAt := none, movedAt := none }

/-- A sample element with creation ticket 2. -/
def sampleElem2 : Elem := { value := 7, createdAt := 2, removedAt := none, movedAt := none }

/-- The state reached from a fresh list by `Add sampleElem1`. -/
def sample1 : RGATreeList :=
  { arena := [{ value := 0, createdAt := initialTicket,
                removedAt := some initialTicket, movedAt := none }, sampleElem1]
    order := [0, 1]
    lastId := 1
    size := 1
    byCreated := [(1, 1), (initialTicket, 0)] }

/-- The state reached from `sample1` by `Add sampleElem2`. -/
def sample2 : RGATreeList :=
  { arena := [{ value := 0, createdAt := initialTicket,
                removedAt := some initialTicket, movedAt := none }, sampleElem1, sampleElem2]
    order := [0, 1, 2]
    lastId := 2
    size := 2
    byCreated := [(2, 2), (1, 1), (initialTicket, 0)] }

/-- Build, from a fresh list, a two-element list whose physically last node is
then tombstoned: Add value 1 (ticket 1), Add value 2 (ticket 2), delete
ticket 2 at ticket 3. -/
def tombstoneTailChain : Except Err RGATreeList :=
  ((NewRGATreeList.Add { value := 1, createdAt := 1, removedAt := none, movedAt := none }).bind
    (fun a => a.Add { value := 2, createdAt := 2, removedAt := none, movedAt := none })).bind
    (fun a => a.DeleteByCreatedAt 2 3)

/-- Same construction with marshal values 0 and 1. -/
def tombstoneTailChain01 : Except Err RGATreeList :=
  ((NewRGATreeList.Add { value := 0, createdAt := 1, removedAt := none, movedAt := none }).bind
    (fun a => a.Add { value := 1, createdAt := 2, removedAt := none, movedAt := none })).bind
    (fun a => a.DeleteByCreatedAt 2 3)

/-- The state reached from `sample2` by `DeleteByCreatedAt 2 3`. -/
def sample2del : RGATreeList :=
  { arena := [{ value := 0, createdAt := initialTicket,
                removedAt := some initialTicket, movedAt := none }, sampleElem1,
              { value := 7, createdAt := 2, removedAt := some 3, movedAt := none }]
    order := [0, 1, 2]
    lastId := 2
    size := 1
    byCreated := [(2, 2), (1, 1), (initialTicket, 0)] }

/-- Run a sequence of `Add` calls. -/
def addAll (a : RGATreeList) : List Elem → Except Err RGATreeList
  | [] => .ok a
  | e :: rest => (a.Add e).bind (fun a2 => addAll a2 rest)

/-- The identity map built by consecutive `Add` calls of fresh elements:
newest binding first, ending at the sentinel's binding. -/
def mapAcc : List Elem → Nat → List (Ticket × Nat) → List (Ticket × Nat)
  | [], _, acc => acc
  | e :: rest, i, acc => mapAcc rest (i + 1) ((e.createdAt, i) :: acc)

/-- The state reached by `Add`-ing the given fresh elements, in order, to a
fresh list: the sentinel then the elements in the arena and in list order. -/
def canonical (es : List Elem) : RGATreeList :=
  { arena := sentinelElem :: es
    order := List.range (es.length + 1)
    lastId := es.length
    size := (es.length : Int)
    byCreated := mapAcc es 1 [(initialTicket, 0)] }

theorem getD_set_self (l : List Elem) (i : Nat) (x d : Elem) (h : i < l.length) :
    (l.set i x).getD i d = x := by
  induction l generalizing i with
  | nil => simp at h
  | cons y ys ih =>
    cases i with
    | zero => simp [List.getD]
    | succ n =>
      simp only [List.set, List.getD, List.getElem?_cons_succ]
      exact ih n (by simpa using h)

/-- After `elemRemove` the element always carries a removal ticket. -/
theorem elemRemove_removed (e : Elem) (t : Ticket) :
    isRemoved (elemRemove e t).1 = true := by
  unfold elemRemove isRemoved
  cases h : e.removedAt with
  | none => simp
  | some r =>
    by_cases ht : tafter t r = true
    · simp [ht]
    · simp [ht, h]

/-- C10: a freshly constructed list has its sentinel element tombstoned at
construction, `Len()` returns 0, `Nodes()` is empty (it starts at the
sentinel's successor), and `Marshal()` renders `[]`. -/
theorem newList_sentinel_hidden :
    isRemoved (elemOf NewRGATreeList 0) = true ∧
    NewRGATreeList.Len = 0 ∧
    NewRGATreeList.Nodes = [] ∧
    NewRGATreeList.Marshal = "[]" := by
  decide

/-- C5 is violated by the code: moving a tombstoned node through `MoveAfter`
increments the live counter (`release` skips the decrement for a tombstone
while `insertAfter` increments unconditionally).  Starting from a reachable
state with `Len() = 1` and one live node, the accepted move of the tombstoned
element with creation ticket 2 yields `Len() = 2` while the number of live
nodes stays 1. -/
theorem moveAfter_tombstone_changes_len :
    tombstoneTailChain.map RGATreeList.Len = .ok 1 ∧
    tombstoneTailChain.map (fun a => liveIds a a.order) = .ok 1 ∧
    (tombstoneTailChain.bind (fun a => a.MoveAfter 1 2 4)).map RGATreeList.Len = .ok 2 ∧
    (tombstoneTailChain.bind (fun a => a.MoveAfter 1 2 4)).map
      (fun a => liveIds a a.order) = .ok 1 := by
  decide

/-- C7 is violated by the code (its own FIXME comment admits it): when the
physically last node is a tombstone, `Marshal` appends a separating comma
after the last live element, rendering `[0,]` instead of `[0]` on a reachable
state whose live elements are exactly one element marshalling to `0`. -/
theorem marshal_trailing_tombstone :
    tombstoneTailChain01.map RGATreeList.Marshal = .ok "[0,]" ∧
    tombstoneTailChain01.map RGATreeList.Len = .ok 1 := by
  decide

/-- C9 as stated is violated by `MoveAfter` when the prev ticket and the
target ticket coincide: both tickets resolve at entry, yet the call fails
with the unknown-identifier condition (the node is released, and the
placement step can no longer resolve the ticket), after having mutated the
list in the Go original. -/
theorem moveAfter_self_unknownId :
    NewRGATreeList.Add sampleElem1 = .ok sample1 ∧
    mapLookup sample1.byCreated 1 = some 1 ∧
    sample1.MoveAfter 1 1 2 = .error (.unknownId 1) := by
  decide

theorem mapLookup_mem (m : List (Ticket × Nat)) (k : Ticket) (v : Nat)
    (h : mapLookup m k = some v) : (k, v) ∈ m := by
  induction m with
  | nil => simp [mapLookup] at h
  | cons p rest ih =>
    obtain ⟨pk, pv⟩ := p
    simp only [mapLookup] at h
    by_cases hk : pk = k
    · rw [if_pos hk] at h
      cases h
      subst hk
      exact List.mem_cons_self _ _
    · rw [if_neg hk] at h
      exact List.mem_cons_of_mem _ (ih h)

theorem mapLookup_erase_ne (m : List (Ticket × Nat)) (c k : Ticket) (h : k ≠ c) :
    mapLookup (mapErase m c) k = mapLookup m k := by
  induction m with
  | nil => rfl
  | cons p rest ih =>
    obtain ⟨pk, pv⟩ := p
    by_cases hpc : pk = c
    · have : mapErase ((pk, pv) :: rest) c = mapErase rest c := by
        simp [mapErase, List.filter_cons, hpc]
      rw [this, ih]
      simp only [mapLookup]
      rw [if_neg (by rw [hpc]; exact fun e => h e.symm)]
    · have : mapErase ((pk, pv) :: rest) c = (pk, pv) :: mapErase rest c := by
        simp [mapErase, List.filter_cons, hpc]
      rw [this]
      simp only [mapLookup]
      by_cases hk : pk = k
      · rw [if_pos hk, if_pos hk]
      · rw [if_neg hk, if_neg hk, ih]

theorem suffixAfter_append (pre s : List Nat) (i : Nat) (h : i ∉ pre) :
    suffixAfter (pre ++ i :: s) i = s := by
  induction pre with
  | nil => simp [suffixAfter]
  | cons x xs ih =>
    have hx : x ≠ i := fun e => h (by rw [e]; exact List.mem_cons_self _ _)
    simp only [List.cons_append, suffixAfter, if_neg hx]
    exact ih (fun hm => h (List.mem_cons_of_mem _ hm))

theorem idsBefore_append (pre s : List Nat) (i : Nat) (h : i ∉ pre) :
    idsBefore (pre ++ i :: s) i = pre := by
  induction pre with
  | nil => simp [idsBefore]
  | cons x xs ih =>
    have hx : x ≠ i := fun e => h (by rw [e]; exact List.mem_cons_self _ _)
    simp only [List.cons_append, idsBefore, if_neg hx, List.append_eq]
    rw [ih (fun hm => h (List.mem_cons_of_mem _ hm))]

theorem insertAfterId_append (pre rest : List Nat) (p n : Nat) (h : p ∉ pre) :
    insertAfterId (pre ++ rest) p n = pre ++ insertAfterId rest p n := by
  induction pre with
  | nil => rfl
  | cons x xs ih =>
    have hx : x ≠ p := fun e => h (by rw [e]; exact List.mem_cons_self _ _)
    simp only [List.cons_append, insertAfterId, if_neg hx, List.append_eq]
    rw [ih (fun hm => h (List.mem_cons_of_mem _ hm))]

theorem eraseId_append (pre rest : List Nat) (i : Nat) (h : i ∉ pre) :
    eraseId (pre ++ rest) i = pre ++ eraseId rest i := by
  induction pre with
  | nil => rfl
  | cons x xs ih =>
    have hx : x ≠ i := fun e => h (by rw [e]; exact List.mem_cons_self _ _)
    simp only [List.cons_append, eraseId, if_neg hx, List.append_eq]
    rw [ih (fun hm => h (List.mem_cons_of_mem _ hm))]

theorem eraseId_cons_self (s : List Nat) (i : Nat) : eraseId (i :: s) i = s := by
  simp [eraseId]

theorem scanForward_mem (a : RGATreeList) (t : Ticket) (s : List Nat) :
    ∀ cur : Nat, scanForward a t cur s ∈ cur :: s := by
  induction s with
  | nil => intro cur; simp [scanForward]
  | cons nxt rest ih =>
    intro cur
    simp only [scanForward]
    by_cases hc : tafter (positionedAt (elemOf a nxt)) t = true
    · rw [if_pos hc]
      exact List.mem_cons_of_mem _ (ih nxt)
    · rw [if_neg hc]
      exact List.mem_cons_self _ _

theorem prevGo_found (i : Nat) (xs : List Nat) :
    ∀ x : Nat, i ∈ xs → ∃ p, prevGo i x xs = some p := by
  induction xs with
  | nil => intro x hi; simp at hi
  | cons y rest ih =>
    intro x hi
    simp only [prevGo]
    by_cases hy : y = i
    · exact ⟨x, by rw [if_pos hy]⟩
    · rw [if_neg hy]
      have hir : i ∈ rest := by
        cases List.mem_cons.mp hi with
        | inl h => exact absurd h.symm hy
        | inr h => exact h
      exact ih y hir

theorem prevIdOf_found (i x : Nat) (xs : List Nat) (hx : x ≠ i) (hi : i ∈ xs) :
    ∃ p, prevIdOf (x :: xs) i = some p := by
  have hxi : (x = i) = False := eq_false hx
  simp only [prevIdOf, hxi, if_false]
  exact prevGo_found i xs x hi

theorem eraseId_not_mem (l : List Nat) (i : Nat) (hnd : l.Nodup) : i ∉ eraseId l i := by
  induction l with
  | nil => simp [eraseId]
  | cons x xs ih =>
    obtain ⟨hx, hxs⟩ := List.nodup_cons.mp hnd
    by_cases hxi : x = i
    · rw [show eraseId (x :: xs) i = xs from by simp [eraseId, hxi]]
      rw [← hxi]
      exact hx
    · rw [show eraseId (x :: xs) i = x :: eraseId xs i from by simp [eraseId, hxi]]
      intro hmem
      cases List.mem_cons.mp hmem with
      | inl h => exact hxi h.symm
      | inr h => exact ih hxs h

theorem mem_insertAfterId (l : List Nat) (p n x : Nat) (h : x ∈ insertAfterId l p n) :
    x ∈ l ∨ x = n := by
  induction l with
  | nil => simp [insertAfterId] at h
  | cons y ys ih =>
    by_cases hy : y = p
    · rw [show insertAfterId (y :: ys) p n = y :: n :: ys from by simp [insertAfterId, hy]] at h
      rcases List.mem_cons.mp h with h1 | h2
      · exact Or.inl (by rw [h1]; exact List.mem_cons_self _ _)
      · rcases List.mem_cons.mp h2 with h3 | h4
        · exact Or.inr h3
        · exact Or.inl (List.mem_cons_of_mem _ h4)
    · rw [show insertAfterId (y :: ys) p n = y :: insertAfterId ys p n from by
        simp [insertAfterId, hy]] at h
      rcases List.mem_cons.mp h with h1 | h2
      · exact Or.inl (by rw [h1]; exact List.mem_cons_self _ _)
      · rcases ih h2 with h3 | h4
        · exact Or.inl (List.mem_cons_of_mem _ h3)
        · exact Or.inr h4

/-- Computation rule for `release` once the `prev` pointer is known. -/
theorem release_spec (a : RGATreeList) (id pv : Nat) (hpv : prevIdOf a.order id = some pv) :
    release a id = .ok { arena := a.arena
                         order := eraseId a.order id
                         lastId := if a.lastId = id then pv else a.lastId
                         size := if isRemoved (elemOf a id) then a.size else a.size - 1
                         byCreated := mapErase a.byCreated (elemOf a id).createdAt } := by
  unfold release
  rw [hpv]

/-- Computation rule for `insertAfter` once the map lookup is known. -/
theorem insertAfter_spec (a : RGATreeList) (pc : Ticket) (v : Elem) (t : Ticket) (pid : Nat)
    (hlk : mapLookup a.byCreated pc = some pid) :
    insertAfter a pc v t =
      .ok { arena := a.arena ++ [v]
            order := insertAfterId a.order
              (scanForward a t pid (suffixAfter a.order pid)) a.arena.length
            lastId := if scanForward a t pid (suffixAfter a.order pid) = a.lastId
              then a.arena.length else a.lastId
            size := a.size + 1
            byCreated := mapInsert a.byCreated v.createdAt a.arena.length } := by
  unfold insertAfter findNextBeforeExecutedAt
  rw [hlk]

/-- C3: `DeleteByCreatedAt` is idempotent.  Only a first, state-changing
removal decrements the live counter; a second call on the same creation
ticket (with any removal ticket) succeeds, leaves `Len()` and the node
sequence of list and tree unchanged, and touches neither the map nor the
`last` pointer. -/
theorem deleteByCreatedAt_idem (a a1 : RGATreeList) (c t t' : Ticket) (id : Nat)
    (hl : mapLookup a.byCreated c = some id)
    (hid : id < a.arena.length)
    (h1 : a.DeleteByCreatedAt c t = .ok a1) :
    (isRemoved (elemOf a id) = false → a1.size = a.size - 1 ∧ a1.order = a.order) ∧
    ∃ a2, a1.DeleteByCreatedAt c t' = .ok a2 ∧ a2.size = a1.size ∧ a2.order = a1.order ∧
      a2.byCreated = a1.byCreated ∧ a2.lastId = a1.lastId ∧ a2.Len = a1.Len := by
  unfold RGATreeList.DeleteByCreatedAt at h1
  rw [hl] at h1
  simp only at h1
  have hstate : a1.byCreated = a.byCreated ∧ a1.order = a.order ∧ a1.lastId = a.lastId ∧
      a1.arena = a.arena.set id (elemRemove (elemOf a id) t).1 ∧
      (isRemoved (elemOf a id) = false → a1.size = a.size - 1) := by
    by_cases hc : ((elemRemove (elemOf a id) t).2 && !isRemoved (elemOf a id)) = true
    · rw [if_pos hc] at h1
      cases h1
      refine ⟨rfl, rfl, rfl, rfl, fun _ => rfl⟩
    · rw [if_neg hc] at h1
      cases h1
      refine ⟨rfl, rfl, rfl, rfl, fun hrem => ?_⟩
      exfalso
      apply hc
      rw [hrem]
      have : (elemRemove (elemOf a id) t).2 = true := by
        unfold elemRemove
        rw [show (elemOf a id).removedAt = none from by
          unfold isRemoved at hrem
          cases h : (elemOf a id).removedAt with
          | none => rfl
          | some r => rw [h] at hrem; simp at hrem]
      rw [this]
      rfl
  obtain ⟨hmap, hord, hlast, harena, hsz⟩ := hstate
  refine ⟨fun hrem => ⟨hsz hrem, hord⟩, ?_⟩
  have hrm : isRemoved (elemOf a1 id) = true := by
    unfold elemOf
    rw [harena, getD_set_self _ _ _ _ hid]
    exact elemRemove_removed _ _
  have hl1 : mapLookup a1.byCreated c = some id := by rw [hmap]; exact hl
  refine ⟨{ a1 with arena := a1.arena.set id (elemRemove (elemOf a1 id) t').1 }, ?_, rfl, rfl, rfl, rfl, rfl⟩
  unfold RGATreeList.DeleteByCreatedAt
  rw [hl1]
  simp only [hrm]
  rw [if_neg (by simp)]

/-- Witness for C3 at a concrete reachable state: deleting creation ticket 2
from `sample2` and deleting it again. -/
theorem deleteByCreatedAt_idem_witness :
    (isRemoved (elemOf sample2 2) = false → sample2del.size = sample2.size - 1 ∧
      sample2del.order = sample2.order) ∧
    ∃ a2, sample2del.DeleteByCreatedAt 2 3 = .ok a2 ∧ a2.size = sample2del.size ∧
      a2.order = sample2del.order ∧ a2.byCreated = sample2del.byCreated ∧
      a2.lastId = sample2del.lastId ∧ a2.Len = sample2del.Len :=
  deleteByCreatedAt_idem sample2 sample2del 2 3 3 2 (by decide) (by decide) (by decide)

/-- A `MoveAfter` whose guard fails returns the state unchanged. -/
theorem moveAfter_noop (b : RGATreeList) (p c u : Ticket) (pid2 nid : Nat)
    (hp2 : mapLookup b.byCreated p = some pid2)
    (hc2 : mapLookup b.byCreated c = some nid)
    (hgu : moveGuard (elemOf b nid) u = false) :
    b.MoveAfter p c u = .ok b := by
  simp only [RGATreeList.MoveAfter, hp2, hc2, hgu, Bool.false_eq_true, reduceIte]

/-- An accepted `MoveAfter` (guard passing): the full effect of the
release/insert/set-moved sequence. -/
theorem moveAfter_step (a : RGATreeList) (p c t : Ticket) (pid id : Nat)
    (hnd : a.order.Nodup)
    (h0 : a.order.head? = some 0)
    (hp : mapLookup a.byCreated p = some pid)
    (hc : mapLookup a.byCreated c = some id)
    (hpc : p ≠ c)
    (hcc : (elemOf a id).createdAt = c)
    (hpp : (elemOf a pid).createdAt = p)
    (hmem : id ∈ a.order)
    (hid0 : id ≠ 0)
    (hlt : id < a.arena.length)
    (hg : moveGuard (elemOf a id) t = true) :
    ∃ a1, a.MoveAfter p c t = .ok a1 ∧
      mapLookup a1.byCreated c = some a.arena.length ∧
      elemOf a1 a.arena.length = { elemOf a id with movedAt := some t } ∧
      id ∉ a1.order ∧
      a1.MoveAfter p c t = .ok a1 ∧
      (∀ u, tafter u t = false → a1.MoveAfter p c u = .ok a1) := by
  obtain ⟨rest, horder⟩ : ∃ rest, a.order = 0 :: rest := by
    cases ho : a.order with
    | nil => rw [ho] at h0; simp at h0
    | cons x xs =>
      rw [ho] at h0
      simp only [List.head?] at h0
      exact ⟨xs, by rw [(Option.some.injEq _ _).mp h0]⟩
  have hidrest : id ∈ rest := by
    rw [horder] at hmem
    cases List.mem_cons.mp hmem with
    | inl h => exact absurd h hid0
    | inr h => exact h
  obtain ⟨pv, hpv⟩ := prevIdOf_found id 0 rest (fun e => hid0 e.symm) hidrest
  have hpv2 : prevIdOf a.order id = some pv := by rw [horder]; exact hpv
  have hrel := release_spec a id pv hpv2
  have hlkA1 : mapLookup (mapErase a.byCreated (elemOf a id).createdAt) p = some pid := by
    rw [hcc, mapLookup_erase_ne _ _ _ hpc]
    exact hp
  have hmain : a.MoveAfter p c t = .ok
      { arena := (a.arena ++ [elemOf a id]).set a.arena.length
          { elemOf a id with movedAt := some t }
        order := insertAfterId (eraseId a.order id)
          (scanForward
            { arena := a.arena
              order := eraseId a.order id
              lastId := if a.lastId = id then pv else a.lastId
              size := if isRemoved (elemOf a id) then a.size else a.size - 1
              byCreated := mapErase a.byCreated (elemOf a id).createdAt }
            t pid (suffixAfter (eraseId a.order id) pid)) a.arena.length
        lastId := if scanForward
            { arena := a.arena
              order := eraseId a.order id
              lastId := if a.lastId = id then pv else a.lastId
              size := if isRemoved (elemOf a id) then a.size else a.size - 1
              byCreated := mapErase a.byCreated (elemOf a id).createdAt }
            t pid (suffixAfter (eraseId a.order id) pid) =
            (if a.lastId = id then pv else a.lastId)
          then a.arena.length else (if a.lastId = id then pv else a.lastId)
        size := (if isRemoved (elemOf a id) then a.size else a.size - 1) + 1
        byCreated := mapInsert (mapErase a.byCreated (elemOf a id).createdAt)
          (elemOf a id).createdAt a.arena.length } := by
    simp only [RGATreeList.MoveAfter, hp, hc, hg, reduceIte]
    rw [hrel]
    simp only []
    rw [hpp]
    rw [insertAfter_spec _ p (elemOf a id) t pid hlkA1]
  refine ⟨_, hmain, ?h2, ?h3, ?h4, ?h5, ?h6⟩
  case h2 =>
    simp only [mapInsert, mapLookup, hcc, if_pos]
  case h3 =>
    unfold elemOf
    exact getD_set_self _ _ _ _ (by simp)
  case h4 =>
    intro hmem4
    rcases mem_insertAfterId _ _ _ _ hmem4 with h | h
    · exact eraseId_not_mem a.order id hnd h
    · exact absurd h (Nat.ne_of_lt hlt)
  case h5 =>
    apply moveAfter_noop _ p c t pid a.arena.length
    · show mapLookup (mapInsert (mapErase a.byCreated (elemOf a id).createdAt)
        (elemOf a id).createdAt a.arena.length) p = some pid
      simp only [mapInsert, mapLookup, hcc]
      rw [if_neg (fun e => hpc e.symm), mapLookup_erase_ne _ _ _ hpc,
        mapLookup_erase_ne _ _ _ hpc]
      exact hp
    · show mapLookup (mapInsert (mapErase a.byCreated (elemOf a id).createdAt)
        (elemOf a id).createdAt a.arena.length) c = some a.arena.length
      simp only [mapInsert, mapLookup, hcc, if_pos]
    · show moveGuard (((a.arena ++ [elemOf a id]).set a.arena.length
        { elemOf a id with movedAt := some t }).getD a.arena.length defaultElem) t = false
      rw [getD_set_self _ _ _ _ (by simp)]
      simp [moveGuard, tafter]
  case h6 =>
    intro u hu
    apply moveAfter_noop _ p c u pid a.arena.length
    · show mapLookup (mapInsert (mapErase a.byCreated (elemOf a id).createdAt)
        (elemOf a id).createdAt a.arena.length) p = some pid
      simp only [mapInsert, mapLookup, hcc]
      rw [if_neg (fun e => hpc e.symm), mapLookup_erase_ne _ _ _ hpc,
        mapLookup_erase_ne _ _ _ hpc]
      exact hp
    · show mapLookup (mapInsert (mapErase a.byCreated (elemOf a id).createdAt)
        (elemOf a id).createdAt a.arena.length) c = some a.arena.length
      simp only [mapInsert, mapLookup, hcc, if_pos]
    · show moveGuard (((a.arena ++ [elemOf a id]).set a.arena.length
        { elemOf a id with movedAt := some t }).getD a.arena.length defaultElem) u = false
      rw [getD_set_self _ _ _ _ (by simp)]
      simp only [moveGuard]
      exact hu

/-- C4: `MoveAfter(prevTicket, ticket, executedAt)` applies its relocation
if and only if the target has never been moved or `executedAt` is strictly
after its current move ticket; a rejected call returns the state unchanged,
an accepted call re-registers the element on a fresh node whose move ticket
is `executedAt` and unlinks the old node, and afterwards re-applying the same
move, or any move with a not-later ticket, is a no-op: the element stays
positioned by the newest ticket only. -/
theorem moveAfter_lww (a : RGATreeList) (p c t : Ticket) (pid id : Nat)
    (hnd : a.order.Nodup)
    (h0 : a.order.head? = some 0)
    (hp : mapLookup a.byCreated p = some pid)
    (hc : mapLookup a.byCreated c = some id)
    (hpc : p ≠ c)
    (hcc : (elemOf a id).createdAt = c)
    (hpp : (elemOf a pid).createdAt = p)
    (hmem : id ∈ a.order)
    (hid0 : id ≠ 0)
    (hlt : id < a.arena.length) :
    (moveGuard (elemOf a id) t = false → a.MoveAfter p c t = .ok a) ∧
    (moveGuard (elemOf a id) t = true →
      ∃ a1, a.MoveAfter p c t = .ok a1 ∧
        mapLookup a1.byCreated c = some a.arena.length ∧
        elemOf a1 a.arena.length = { elemOf a id with movedAt := some t } ∧
        id ∉ a1.order ∧
        a1.MoveAfter p c t = .ok a1 ∧
        (∀ u, tafter u t = false → a1.MoveAfter p c u = .ok a1)) :=
  ⟨fun hg => moveAfter_noop a p c t pid id hp hc hg,
   fun hg => moveAfter_step a p c t pid id hnd h0 hp hc hpc hcc hpp hmem hid0 hlt hg⟩

/-- Witness for C4 at the concrete state `sample2`: moving the element with
creation ticket 2 after the element with creation ticket 1 at ticket 5. -/
theorem moveAfter_lww_witness :
    (moveGuard (elemOf sample2 2) 5 = false → sample2.MoveAfter 1 2 5 = .ok sample2) ∧
    (moveGuard (elemOf sample2 2) 5 = true →
      ∃ a1, sample2.MoveAfter 1 2 5 = .ok a1 ∧
        mapLookup a1.byCreated 2 = some sample2.arena.length ∧
        elemOf a1 sample2.arena.length = { elemOf sample2 2 with movedAt := some 5 } ∧
        2 ∉ a1.order ∧
        a1.MoveAfter 1 2 5 = .ok a1 ∧
        (∀ u, tafter u 5 = false → a1.MoveAfter 1 2 u = .ok a1)) :=
  moveAfter_lww sample2 1 2 5 1 2 (by decide) (by decide) (by decide) (by decide)
    (by decide) (by decide) (by decide) (by decide) (by decide) (by decide)

theorem deleteByCreatedAt_total (a : RGATreeList) (c t : Ticket) (id : Nat)
    (hl : mapLookup a.byCreated c = some id) :
    ∃ a2, a.DeleteByCreatedAt c t = .ok a2 := by
  unfold RGATreeList.DeleteByCreatedAt
  rw [hl]
  simp only []
  by_cases hcond : ((elemRemove (elemOf a id) t).2 && !isRemoved (elemOf a id)) = true
  · rw [if_pos hcond]
    exact ⟨_, rfl⟩
  · rw [if_neg hcond]
    exact ⟨_, rfl⟩

theorem walkPrev_toSentinel (a : RGATreeList) (l : List Nat) :
    ∃ i, walkPrev a (l ++ [0]) = some i := by
  induction l with
  | nil => exact ⟨0, by simp [walkPrev]⟩
  | cons x xs ih =>
    by_cases hx : (x = 0 || !isRemoved (elemOf a x)) = true
    · exact ⟨x, by simp only [List.cons_append, walkPrev, hx, if_pos]⟩
    · obtain ⟨i, hi⟩ := ih
      refine ⟨i, ?_⟩
      simp only [List.cons_append, walkPrev]
      rw [if_neg hx]
      exact hi

theorem findPrev_total (a : RGATreeList) (c : Ticket) (id : Nat)
    (h0 : a.order.head? = some 0)
    (hl : mapLookup a.byCreated c = some id)
    (hid0 : id ≠ 0) :
    ∃ r, a.FindPrevCreatedAt c = .ok r := by
  obtain ⟨rest, horder⟩ : ∃ rest, a.order = 0 :: rest := by
    cases ho : a.order with
    | nil => rw [ho] at h0; simp at h0
    | cons x xs =>
      rw [ho] at h0
      simp only [List.head?] at h0
      exact ⟨xs, by rw [(Option.some.injEq _ _).mp h0]⟩
  have hbefore : idsBefore a.order id = 0 :: idsBefore rest id := by
    rw [horder]
    have : (0 : Nat) ≠ id := fun h => hid0 h.symm
    simp [idsBefore, this]
  obtain ⟨i, hi⟩ := walkPrev_toSentinel a (idsBefore rest id).reverse
  refine ⟨(elemOf a i).createdAt, ?_⟩
  unfold RGATreeList.FindPrevCreatedAt
  rw [hl]
  simp only [hbefore, List.reverse_cons]
  rw [hi]

theorem moveAfter_total (a : RGATreeList) (p c u : Ticket) (pid id : Nat)
    (hnd : a.order.Nodup)
    (h0 : a.order.head? = some 0)
    (hp : mapLookup a.byCreated p = some pid)
    (hc : mapLookup a.byCreated c = some id)
    (hpc : p ≠ c)
    (hcc : (elemOf a id).createdAt = c)
    (hpp : (elemOf a pid).createdAt = p)
    (hmem : id ∈ a.order)
    (hid0 : id ≠ 0)
    (hlt : id < a.arena.length) :
    ∃ a2, a.MoveAfter p c u = .ok a2 := by
  by_cases hg : moveGuard (elemOf a id) u = true
  · obtain ⟨a1, h1, _⟩ := moveAfter_step a p c u pid id hnd h0 hp hc hpc hcc hpp hmem hid0 hlt hg
    exact ⟨a1, h1⟩
  · exact ⟨a, moveAfter_noop a p c u pid id hp hc (Bool.not_eq_true _ ▸ hg)⟩



/-- C9 (amended): resolving operations fail with the unknown-identifier
condition exactly when the supplied ticket has no map entry, and a resolvable
ticket yields success, for `DeleteByCreatedAt`, `FindPrevCreatedAt`, `purge`,
the placement step of `InsertAfter`, and `MoveAfter` with distinct prev and
target tickets on non-sentinel targets; the exception forced by the
counterexample is `MoveAfter` whose two tickets coincide, which releases the
node and then fails the placement lookup although the ticket resolved at
entry. -/
theorem unknown_id_exact (a : RGATreeList) (p c t u : Ticket) (v e : Elem)
    (hWF : WF a) (hpc : p ≠ c) (hc0 : c ≠ initialTicket)
    (he0 : e.createdAt ≠ initialTicket) :
    (a.DeleteByCreatedAt c t = .error (.unknownId c) ↔ mapLookup a.byCreated c = none) ∧
    ((∃ a2, a.DeleteByCreatedAt c t = .ok a2) ↔ mapLookup a.byCreated c ≠ none) ∧
    (a.FindPrevCreatedAt c = .error (.unknownId c) ↔ mapLookup a.byCreated c = none) ∧
    ((∃ r, a.FindPrevCreatedAt c = .ok r) ↔ mapLookup a.byCreated c ≠ none) ∧
    (a.purge e = .error (.unknownId e.createdAt) ↔ mapLookup a.byCreated e.createdAt = none) ∧
    ((∃ a2, a.purge e = .ok a2) ↔ mapLookup a.byCreated e.createdAt ≠ none) ∧
    (insertAfter a p v u = .error (.unknownId p) ↔ mapLookup a.byCreated p = none) ∧
    ((∃ a2, insertAfter a p v u = .ok a2) ↔ mapLookup a.byCreated p ≠ none) ∧
    (a.MoveAfter p c u = .error (.unknownId p) ↔ mapLookup a.byCreated p = none) ∧
    (mapLookup a.byCreated p ≠ none →
      (a.MoveAfter p c u = .error (.unknownId c) ↔ mapLookup a.byCreated c = none)) ∧
    (mapLookup a.byCreated p ≠ none → mapLookup a.byCreated c ≠ none →
      ∃ a2, a.MoveAfter p c u = .ok a2) := by
  obtain ⟨h0, hnd, hbound, hsound, hcomp, hct0, hrm0, hsz⟩ := hWF
  have hfacts : ∀ k i, mapLookup a.byCreated k = some i → k ≠ initialTicket →
      i ∈ a.order ∧ (elemOf a i).createdAt = k ∧ i ≠ 0 ∧ i < a.arena.length := by
    intro k i hki hk0
    have hmem := mapLookup_mem _ _ _ hki
    obtain ⟨hio, hica⟩ := hsound _ hmem
    refine ⟨hio, hica, ?_, hbound _ hio⟩
    intro h
    rw [h] at hica
    rw [hct0] at hica
    exact hk0 hica.symm
  have horder : ∃ rest, a.order = 0 :: rest := by
    cases ho : a.order with
    | nil => rw [ho] at h0; simp at h0
    | cons x xs =>
      rw [ho] at h0
      simp only [List.head?] at h0
      exact ⟨xs, by rw [(Option.some.injEq _ _).mp h0]⟩
  obtain ⟨rest, horder⟩ := horder
  have hrelease : ∀ i, i ∈ a.order → i ≠ 0 → ∃ a2, release a i = .ok a2 := by
    intro i hio hi0
    have hirest : i ∈ rest := by
      rw [horder] at hio
      cases List.mem_cons.mp hio with
      | inl h => exact absurd h hi0
      | inr h => exact h
    obtain ⟨pv, hpv⟩ := prevIdOf_found i 0 rest (fun h2 => hi0 h2.symm) hirest
    have hpv2 : prevIdOf a.order i = some pv := by rw [horder]; exact hpv
    exact ⟨_, release_spec a i pv hpv2⟩
  refine ⟨?_, ?_, ?_, ?_, ?_, ?_, ?_, ?_, ?_, ?_, ?_⟩
  · cases hl : mapLookup a.byCreated c with
    | none => simp [RGATreeList.DeleteByCreatedAt, hl]
    | some i =>
      obtain ⟨a2, h2⟩ := deleteByCreatedAt_total a c t i hl
      rw [h2]
      simp
  · cases hl : mapLookup a.byCreated c with
    | none => simp [RGATreeList.DeleteByCreatedAt, hl]
    | some i =>
      obtain ⟨a2, h2⟩ := deleteByCreatedAt_total a c t i hl
      rw [h2]
      simp
  · cases hl : mapLookup a.byCreated c with
    | none => simp [RGATreeList.FindPrevCreatedAt, hl]
    | some i =>
      obtain ⟨_, _, hi0, _⟩ := hfacts c i hl hc0
      obtain ⟨r, hr⟩ := findPrev_total a c i h0 hl hi0
      rw [hr]
      simp
  · cases hl : mapLookup a.byCreated c with
    | none => simp [RGATreeList.FindPrevCreatedAt, hl]
    | some i =>
      obtain ⟨_, _, hi0, _⟩ := hfacts c i hl hc0
      obtain ⟨r, hr⟩ := findPrev_total a c i h0 hl hi0
      rw [hr]
      simp
  · cases hl : mapLookup a.byCreated e.createdAt with
    | none => simp [RGATreeList.purge, hl]
    | some i =>
      obtain ⟨hio, _, hi0, _⟩ := hfacts e.createdAt i hl he0
      obtain ⟨a2, h2⟩ := hrelease i hio hi0
      have : a.purge e = .ok a2 := by
        unfold RGATreeList.purge
        rw [hl]
        exact h2
      rw [this]
      simp
  · cases hl : mapLookup a.byCreated e.createdAt with
    | none => simp [RGATreeList.purge, hl]
    | some i =>
      obtain ⟨hio, _, hi0, _⟩ := hfacts e.createdAt i hl he0
      obtain ⟨a2, h2⟩ := hrelease i hio hi0
      have : a.purge e = .ok a2 := by
        unfold RGATreeList.purge
        rw [hl]
        exact h2
      rw [this]
      simp
  · cases hl : mapLookup a.byCreated p with
    | none => simp [insertAfter, findNextBeforeExecutedAt, hl]
    | some i =>
      rw [insertAfter_spec a p v u i hl]
      simp
  · cases hl : mapLookup a.byCreated p with
    | none => simp [insertAfter, findNextBeforeExecutedAt, hl]
    | some i =>
      rw [insertAfter_spec a p v u i hl]
      simp
  · cases hlp : mapLookup a.byCreated p with
    | none => simp [RGATreeList.MoveAfter, hlp]
    | some pid =>
      cases hlc : mapLookup a.byCreated c with
      | none =>
        simp only [RGATreeList.MoveAfter, hlp, hlc]
        simp only [Except.error.injEq, Err.unknownId.injEq]
        simp only [Option.some_ne_none, iff_false]
        exact fun h2 => hpc h2.symm
      | some id =>
        obtain ⟨hmem, hcc, hid0, hlt⟩ := hfacts c id hlc hc0
        have hpp : (elemOf a pid).createdAt = p :=
          (hsound _ (mapLookup_mem _ _ _ hlp)).2
        obtain ⟨a2, h2⟩ :=
          moveAfter_total a p c u pid id hnd h0 hlp hlc hpc hcc hpp hmem hid0 hlt
        rw [h2]
        simp
  · intro hne
    obtain ⟨pid, hlp⟩ := Option.ne_none_iff_exists.mp hne
    cases hlc : mapLookup a.byCreated c with
    | none => simp [RGATreeList.MoveAfter, hlp.symm, hlc]
    | some id =>
      obtain ⟨hmem, hcc, hid0, hlt⟩ := hfacts c id hlc hc0
      have hpp : (elemOf a pid).createdAt = p :=
        (hsound _ (mapLookup_mem _ _ _ hlp.symm)).2
      obtain ⟨a2, h2⟩ :=
        moveAfter_total a p c u pid id hnd h0 hlp.symm hlc hpc hcc hpp hmem hid0 hlt
      rw [h2]
      simp
  · intro hnep hnec
    obtain ⟨pid, hlp⟩ := Option.ne_none_iff_exists.mp hnep
    obtain ⟨id, hlc⟩ := Option.ne_none_iff_exists.mp hnec
    obtain ⟨hmem, hcc, hid0, hlt⟩ := hfacts c id hlc.symm hc0
    have hpp : (elemOf a pid).createdAt = p :=
      (hsound _ (mapLookup_mem _ _ _ hlp.symm)).2
    exact moveAfter_total a p c u pid id hnd h0 hlp.symm hlc.symm hpc hcc hpp hmem hid0 hlt

/-- Witness for C9 at `sample2` with prev ticket 1, target ticket 2. -/
theorem unknown_id_exact_witness :
    (sample2.DeleteByCreatedAt 2 3 = .error (.unknownId 2) ↔
      mapLookup sample2.byCreated 2 = none) ∧
    ((∃ a2, sample2.DeleteByCreatedAt 2 3 = .ok a2) ↔
      mapLookup sample2.byCreated 2 ≠ none) ∧
    (sample2.FindPrevCreatedAt 2 = .error (.unknownId 2) ↔
      mapLookup sample2.byCreated 2 = none) ∧
    ((∃ r, sample2.FindPrevCreatedAt 2 = .ok r) ↔
      mapLookup sample2.byCreated 2 ≠ none) ∧
    (sample2.purge sampleElem2 = .error (.unknownId sampleElem2.createdAt) ↔
      mapLookup sample2.byCreated sampleElem2.createdAt = none) ∧
    ((∃ a2, sample2.purge sampleElem2 = .ok a2) ↔
      mapLookup sample2.byCreated sampleElem2.createdAt ≠ none) ∧
    (insertAfter sample2 1 sampleElem1 5 = .error (.unknownId 1) ↔
      mapLookup sample2.byCreated 1 = none) ∧
    ((∃ a2, insertAfter sample2 1 sampleElem1 5 = .ok a2) ↔
      mapLookup sample2.byCreated 1 ≠ none) ∧
    (sample2.MoveAfter 1 2 5 = .error (.unknownId 1) ↔
      mapLookup sample2.byCreated 1 = none) ∧
    (mapLookup sample2.byCreated 1 ≠ none →
      (sample2.MoveAfter 1 2 5 = .error (.unknownId 2) ↔
        mapLookup sample2.byCreated 2 = none)) ∧
    (mapLookup sample2.byCreated 1 ≠ none → mapLookup sample2.byCreated 2 ≠ none →
      ∃ a2, sample2.MoveAfter 1 2 5 = .ok a2) :=
  unknown_id_exact sample2 1 2 3 5 sampleElem1 sampleElem2
    (by decide) (by decide) (by decide) (by decide)

theorem scan_insert_split (a : RGATreeList) (t : Ticket) (n : Nat) :
    ∀ (s : List Nat) (cur : Nat), (cur :: s).Nodup →
    ∃ k, k ≤ s.length ∧
      (∀ i ∈ s.take k, tafter (positionedAt (elemOf a i)) t = true) ∧
      (∀ h : k < s.length, tafter (positionedAt (elemOf a (s.get ⟨k, h⟩))) t = false) ∧
      insertAfterId (cur :: s) (scanForward a t cur s) n =
        cur :: (s.take k ++ n :: s.drop k) := by
  intro s
  induction s with
  | nil =>
    intro cur _
    refine ⟨0, by simp, by simp, by simp, ?_⟩
    simp [scanForward, insertAfterId]
  | cons i rest ih =>
    intro cur hnd
    obtain ⟨hcur, hnd2⟩ := List.nodup_cons.mp hnd
    by_cases hc : tafter (positionedAt (elemOf a i)) t = true
    · obtain ⟨k, hkle, htake, hat, hins⟩ := ih i hnd2
      have hscan : scanForward a t cur (i :: rest) = scanForward a t i rest := by
        simp only [scanForward, hc, if_pos]
      have hcne : cur ≠ scanForward a t i rest := by
        intro h
        exact hcur (h ▸ scanForward_mem a t rest i)
      refine ⟨k + 1, by simpa using hkle, ?_, ?_, ?_⟩
      · intro j hj
        rw [List.take_succ_cons] at hj
        cases List.mem_cons.mp hj with
        | inl h => rw [h]; exact hc
        | inr h => exact htake j h
      · intro h
        have h2 : k < rest.length := by simpa using h
        have : (i :: rest).get ⟨k + 1, by simpa using h⟩ = rest.get ⟨k, h2⟩ := rfl
        rw [this]
        exact hat h2
      · rw [hscan]
        have : insertAfterId (cur :: i :: rest) (scanForward a t i rest) n =
            cur :: insertAfterId (i :: rest) (scanForward a t i rest) n := by
          simp only [insertAfterId, if_neg hcne]
        rw [this, hins]
        simp
    · refine ⟨0, by simp, by simp, ?_, ?_⟩
      · intro h
        simpa using hc
      · have hscan : scanForward a t cur (i :: rest) = cur := by
          simp only [scanForward, hc]
          simp
        rw [hscan]
        simp [insertAfterId]

/-- C1: for every insertion through `insertAfter` (the shared path of `Add`,
`InsertAfter` and the re-insertion phase of `MoveAfter`), with the anchor node
resolved from the creation ticket, the insertion point is obtained by
scanning forward from the anchor: there is a scan length `k` such that every
node passed is positioned strictly after `executedAt`, the first node not
passed is not, and the new node lands immediately after the final scan
position, `k` steps past the anchor. -/
theorem insertAfter_placement (a : RGATreeList) (tA t : Ticket) (v : Elem)
    (pre s : List Nat) (pA : Nat)
    (hlook : mapLookup a.byCreated tA = some pA)
    (ho : a.order = pre ++ pA :: s)
    (hnd : a.order.Nodup) :
    ∃ k, k ≤ s.length ∧
      (∀ i ∈ s.take k, tafter (positionedAt (elemOf a i)) t = true) ∧
      (∀ h : k < s.length, tafter (positionedAt (elemOf a (s.get ⟨k, h⟩))) t = false) ∧
      ∃ a1, insertAfter a tA v t = .ok a1 ∧
        a1.arena = a.arena ++ [v] ∧
        a1.order = pre ++ pA :: (s.take k ++ a.arena.length :: s.drop k) := by
  have hnd2 := ho ▸ hnd
  rw [List.nodup_append] at hnd2
  obtain ⟨hndpre, hndsuf, hdisj⟩ := hnd2
  have hpre : pA ∉ pre := fun h => hdisj h (List.mem_cons_self _ _)
  have hsuf : suffixAfter a.order pA = s := by
    rw [ho]
    exact suffixAfter_append pre s pA hpre
  obtain ⟨k, hkle, htake, hat, hins⟩ := scan_insert_split a t a.arena.length s pA hndsuf
  refine ⟨k, hkle, htake, hat, _, insertAfter_spec a tA v t pA hlook, rfl, ?_⟩
  show insertAfterId a.order
      (scanForward a t pA (suffixAfter a.order pA)) a.arena.length =
    pre ++ pA :: (s.take k ++ a.arena.length :: s.drop k)
  rw [hsuf]
  have hscanpre : scanForward a t pA s ∉ pre :=
    fun h => hdisj h (scanForward_mem a t s pA)
  rw [ho, insertAfterId_append pre (pA :: s) _ _ hscanpre, hins]

/-- Witness for C1 at `sample2`: inserting an element with creation ticket 4
after the node with creation ticket 1. -/
theorem insertAfter_placement_witness :
    ∃ k, k ≤ [2].length ∧
      (∀ i ∈ [2].take k, tafter (positionedAt (elemOf sample2 i)) 4 = true) ∧
      (∀ h : k < [2].length,
        tafter (positionedAt (elemOf sample2 (List.get [2] ⟨k, h⟩))) 4 = false) ∧
      ∃ a1, insertAfter sample2 1
          { value := 3, createdAt := 4, removedAt := none, movedAt := none } 4 = .ok a1 ∧
        a1.arena = sample2.arena ++
          [{ value := 3, createdAt := 4, removedAt := none, movedAt := none }] ∧
        a1.order = [0] ++ 1 :: ([2].take k ++ sample2.arena.length :: [2].drop k) :=
  insertAfter_placement sample2 1 4
    { value := 3, createdAt := 4, removedAt := none, movedAt := none }
    [0] [2] 1 (by decide) (by decide) (by decide)

theorem nextLive_of_pos (a : RGATreeList) (l : List Nat) (h : 0 < liveIds a l) :
    ∃ i, nextLive a l = some i ∧ isRemoved (elemOf a i) = false := by
  induction l with
  | nil => simp [liveIds] at h
  | cons x xs ih =>
    by_cases hx : isRemoved (elemOf a x) = true
    · have : liveIds a (x :: xs) = liveIds a xs := by
        unfold liveIds
        rw [List.countP_cons_of_neg]
        simp [hx]
      rw [this] at h
      obtain ⟨i, hi, hlive⟩ := ih h
      exact ⟨i, by simp only [nextLive, hx, if_pos]; exact hi, hlive⟩
    · have hx2 : isRemoved (elemOf a x) = false := Bool.not_eq_true _ ▸ hx
      exact ⟨x, by simp only [nextLive, hx2]; simp, hx2⟩

theorem liveIds_cons (a : RGATreeList) (x : Nat) (xs : List Nat) :
    liveIds a (x :: xs) = (if isRemoved (elemOf a x) then 0 else 1) + liveIds a xs := by
  unfold liveIds
  by_cases hx : isRemoved (elemOf a x) = true
  · rw [List.countP_cons_of_neg _ _ (by simp [hx])]
    simp [hx]
  · rw [List.countP_cons_of_pos _ _ (by simp at hx; simp [hx])]
    simp only [hx]
    simp at hx
    simp [hx]
    omega

theorem liveIds_append (a : RGATreeList) (l1 l2 : List Nat) :
    liveIds a (l1 ++ l2) = liveIds a l1 + liveIds a l2 := by
  unfold liveIds
  exact List.countP_append _ _ _

theorem findByIdx_split (a : RGATreeList) :
    ∀ (l : List Nat) (idx : Nat), 1 ≤ idx → idx ≤ liveIds a l →
    ∃ l1 j l2, l = l1 ++ j :: l2 ∧
      findByIdx a l idx = (j, idx - liveIds a l1) ∧
      liveIds a l1 = idx - 1 ∧ isRemoved (elemOf a j) = false := by
  intro l
  induction l with
  | nil =>
    intro idx h1 h2
    simp [liveIds] at h2
    omega
  | cons x xs ih =>
    intro idx h1 h2
    cases xs with
    | nil =>
      have hlx : liveIds a [x] ≤ 1 := by
        rw [liveIds_cons]
        simp [liveIds]
        split <;> omega
      have hidx1 : idx = 1 := by omega
      have hxlive : isRemoved (elemOf a x) = false := by
        by_contra hc
        rw [Bool.not_eq_false] at hc
        rw [liveIds_cons, if_pos hc] at h2
        simp [liveIds] at h2
        omega
      refine ⟨[], x, [], by simp, ?_, by simp [liveIds]; omega, hxlive⟩
      simp [findByIdx, hidx1, liveIds]
    | cons y rest =>
      rw [liveIds_cons] at h2
      by_cases hle : idx ≤ (if isRemoved (elemOf a x) then 0 else 1)
      · have hxlive : isRemoved (elemOf a x) = false := by
          by_contra hc
          rw [Bool.not_eq_false] at hc
          rw [if_pos hc] at hle
          omega
        have hw1 : (if isRemoved (elemOf a x) then 0 else 1) = 1 := by
          rw [hxlive]
          simp
        rw [hw1] at hle
        have hidx1 : idx = 1 := by omega
        refine ⟨[], x, y :: rest, by simp, ?_, by simp [liveIds]; omega, hxlive⟩
        have : findByIdx a (x :: y :: rest) idx = (x, idx) := by
          simp only [findByIdx]
          rw [if_pos (by omega)]
        rw [this]
        simp [liveIds, hidx1]
      · have hlt2 : (if isRemoved (elemOf a x) then 0 else 1) < idx := Nat.not_le.mp hle
        have hrec : findByIdx a (x :: y :: rest) idx =
            findByIdx a (y :: rest) (idx - (if isRemoved (elemOf a x) then 0 else 1)) := by
          simp only [findByIdx]
          rw [if_neg hle]
        obtain ⟨l1, j, l2, hsplit, hfind, hl1, hjlive⟩ :=
          ih (idx - (if isRemoved (elemOf a x) then 0 else 1)) (by omega) (by omega)
        refine ⟨x :: l1, j, l2, by rw [List.cons_append, ← hsplit], ?_, ?_, hjlive⟩
        · rw [hrec, hfind, liveIds_cons]
          congr 1
          omega
        · rw [liveIds_cons, hl1]
          omega



/-- C6: for every index `0 <= idx < Len()`, in a well-formed state, `Get`
terminates without a nil dereference and returns a live node, walking forward
past tombstones from the rank-query answer (the sentinel at index 0 or a node
returned with a nonzero offset). -/
theorem get_live (a : RGATreeList) (idx : Nat) (hWF : WF a)
    (hidx : (idx : Int) < a.size) :
    ∃ i, a.Get idx = some i ∧ isRemoved (elemOf a i) = false := by
  obtain ⟨h0, hnd, hbound, hsound, hcomp, hct0, hrm0, hsz⟩ := hWF
  have hidxn : idx < liveIds a a.order := by
    rw [hsz] at hidx
    exact_mod_cast hidx
  obtain ⟨rest, horder⟩ : ∃ rest, a.order = 0 :: rest := by
    cases ho : a.order with
    | nil => rw [ho] at h0; simp at h0
    | cons x xs =>
      rw [ho] at h0
      simp only [List.head?] at h0
      exact ⟨xs, by rw [(Option.some.injEq _ _).mp h0]⟩
  by_cases hz : idx = 0
  · subst hz
    have hrest : 0 < liveIds a rest := by
      rw [horder, liveIds_cons, if_pos hrm0] at hidxn
      omega
    obtain ⟨i, hi, hlive⟩ := nextLive_of_pos a rest hrest
    refine ⟨i, ?_, hlive⟩
    have hfind : findByIdx a a.order 0 = (0, 0) := by
      rw [horder]
      cases rest with
      | nil => simp [findByIdx]
      | cons y r2 =>
        simp only [findByIdx]
        rw [if_pos (by omega)]
    have hsuf : suffixAfter a.order 0 = rest := by
      rw [horder]
      simp [suffixAfter]
    simp only [RGATreeList.Get, hfind, hsuf]
    simpa using hi
  · have h1 : 1 ≤ idx := by omega
    obtain ⟨l1, j, l2, hsplit, hfind, hl1, hjlive⟩ :=
      findByIdx_split a a.order idx h1 (by omega)
    have hsnd : idx - liveIds a l1 = 1 := by omega
    have hjnotl1 : j ∉ l1 := by
      rw [hsplit, List.nodup_append] at hnd
      exact fun h => hnd.2.2 h (List.mem_cons_self _ _)
    have hsuf : suffixAfter a.order j = l2 := by
      rw [hsplit]
      exact suffixAfter_append _ _ _ hjnotl1
    have hl2 : 0 < liveIds a l2 := by
      have htot : liveIds a a.order = liveIds a l1 + liveIds a (j :: l2) := by
        rw [hsplit, liveIds_append]
      rw [liveIds_cons, if_neg (by simp [hjlive])] at htot
      omega
    obtain ⟨i, hi, hlive⟩ := nextLive_of_pos a l2 hl2
    refine ⟨i, ?_, hlive⟩
    simp only [RGATreeList.Get, hfind, hsnd, hsuf]
    rw [if_neg (fun hcontra => hz hcontra.1)]
    simpa using hi

/-- Witness for C6 at `sample2del` (one live element, one tombstone):
index 0 resolves to a live node. -/
theorem get_live_witness :
    ∃ i, sample2del.Get 0 = some i ∧ isRemoved (elemOf sample2del i) = false :=
  get_live sample2del 0 (by decide) (by decide)

theorem tafter_true_iff (a b : Ticket) : tafter a b = true ↔ b < a := by
  unfold tafter
  simp

theorem tafter_false_iff (a b : Ticket) : tafter a b = false ↔ a ≤ b := by
  unfold tafter
  simp

theorem tafter_asymm (t1 t2 : Ticket) (hne : t1 ≠ t2) (h : tafter t1 t2 = false) :
    tafter t2 t1 = true := by
  rw [tafter_false_iff] at h
  rw [tafter_true_iff]
  exact Nat.lt_of_le_of_ne h hne

theorem tafter_antisym (t1 t2 : Ticket) (h : tafter t1 t2 = true) :
    tafter t2 t1 = false := by
  rw [tafter_true_iff] at h
  rw [tafter_false_iff]
  exact Nat.le_of_lt h

theorem tafter_cross (r t1 t2 : Ticket) (h1 : tafter r t1 = true)
    (h2 : tafter r t2 = false) : tafter t2 t1 = true := by
  rw [tafter_true_iff] at h1
  rw [tafter_false_iff] at h2
  rw [tafter_true_iff]
  exact Nat.lt_of_lt_of_le h1 h2

theorem tafter_trans (r t1 t2 : Ticket) (h1 : tafter r t1 = true)
    (h2 : tafter t1 t2 = true) : tafter r t2 = true := by
  rw [tafter_true_iff] at h1 h2 ⊢
  exact Nat.lt_trans h2 h1

/-- The placement rule commutes for distinct ordering tickets: the two
outcomes of inserting `x` (ticket `t1`) and `y` (ticket `t2`) after the same
anchor agree elementwise. -/
theorem absInsE_comm (t1 t2 : Ticket) (x y : Elem)
    (hx : positionedAt x = t1) (hy : positionedAt y = t2) (hne : t1 ≠ t2) :
    ∀ es : List Elem,
      absInsE t2 y (absInsE t1 x es) = absInsE t1 x (absInsE t2 y es) := by
  intro es
  induction es with
  | nil =>
    simp only [absInsE, hx, hy]
    by_cases h12 : tafter t1 t2 = true
    · rw [if_pos h12, if_neg (by rw [tafter_antisym t1 t2 h12]; simp)]
    · rw [if_neg h12, if_pos (tafter_asymm t1 t2 hne (Bool.not_eq_true _ ▸ h12))]
  | cons e rest ih =>
    by_cases he1 : tafter (positionedAt e) t1 = true
    · by_cases he2 : tafter (positionedAt e) t2 = true
      · rw [show absInsE t1 x (e :: rest) = e :: absInsE t1 x rest from by
          simp only [absInsE, he1, if_pos]]
        rw [show absInsE t2 y (e :: rest) = e :: absInsE t2 y rest from by
          simp only [absInsE, he2, if_pos]]
        rw [show absInsE t2 y (e :: absInsE t1 x rest) =
            e :: absInsE t2 y (absInsE t1 x rest) from by
          simp only [absInsE, he2, if_pos]]
        rw [show absInsE t1 x (e :: absInsE t2 y rest) =
            e :: absInsE t1 x (absInsE t2 y rest) from by
          simp only [absInsE, he1, if_pos]]
        rw [ih]
      · have he2f : tafter (positionedAt e) t2 = false := Bool.not_eq_true _ ▸ he2
        have h21 : tafter t2 t1 = true := tafter_cross (positionedAt e) t1 t2 he1 he2f
        rw [show absInsE t1 x (e :: rest) = e :: absInsE t1 x rest from by
          simp only [absInsE, he1, if_pos]]
        rw [show absInsE t2 y (e :: absInsE t1 x rest) =
            y :: e :: absInsE t1 x rest from by
          simp only [absInsE]
          rw [if_neg (by rw [he2f]; simp)]]
        rw [show absInsE t2 y (e :: rest) = y :: e :: rest from by
          simp only [absInsE]
          rw [if_neg (by rw [he2f]; simp)]]
        rw [show absInsE t1 x (y :: e :: rest) = y :: absInsE t1 x (e :: rest) from by
          simp only [absInsE, hy]
          rw [if_pos h21]]
        rw [show absInsE t1 x (e :: rest) = e :: absInsE t1 x rest from by
          simp only [absInsE, he1, if_pos]]
    · have he1f : tafter (positionedAt e) t1 = false := Bool.not_eq_true _ ▸ he1
      by_cases he2 : tafter (positionedAt e) t2 = true
      · have h12 : tafter t1 t2 = true := tafter_cross (positionedAt e) t2 t1 he2 he1f
        rw [show absInsE t2 y (e :: rest) = e :: absInsE t2 y rest from by
          simp only [absInsE, he2, if_pos]]
        rw [show absInsE t1 x (e :: absInsE t2 y rest) =
            x :: e :: absInsE t2 y rest from by
          simp only [absInsE]
          rw [if_neg (by rw [he1f]; simp)]]
        rw [show absInsE t1 x (e :: rest) = x :: e :: rest from by
          simp only [absInsE]
          rw [if_neg (by rw [he1f]; simp)]]
        rw [show absInsE t2 y (x :: e :: rest) = x :: absInsE t2 y (e :: rest) from by
          simp only [absInsE, hx]
          rw [if_pos h12]]
        rw [show absInsE t2 y (e :: rest) = e :: absInsE t2 y rest from by
          simp only [absInsE, he2, if_pos]]
      · have he2f : tafter (positionedAt e) t2 = false := Bool.not_eq_true _ ▸ he2
        rw [show absInsE t1 x (e :: rest) = x :: e :: rest from by
          simp only [absInsE]
          rw [if_neg (by rw [he1f]; simp)]]
        rw [show absInsE t2 y (e :: rest) = y :: e :: rest from by
          simp only [absInsE]
          rw [if_neg (by rw [he2f]; simp)]]
        by_cases h12 : tafter t1 t2 = true
        · have h21f : tafter t2 t1 = false := tafter_antisym t1 t2 h12
          rw [show absInsE t2 y (x :: e :: rest) = x :: absInsE t2 y (e :: rest) from by
            simp only [absInsE, hx]
            rw [if_pos h12]]
          rw [show absInsE t2 y (e :: rest) = y :: e :: rest from by
            simp only [absInsE]
            rw [if_neg (by rw [he2f]; simp)]]
          rw [show absInsE t1 x (y :: e :: rest) = x :: y :: e :: rest from by
            simp only [absInsE, hy]
            rw [if_neg (by rw [h21f]; simp)]]
        · have h12f : tafter t1 t2 = false := Bool.not_eq_true _ ▸ h12
          have h21 : tafter t2 t1 = true := tafter_asymm t1 t2 hne h12f
          rw [show absInsE t2 y (x :: e :: rest) = y :: x :: e :: rest from by
            simp only [absInsE, hx]
            rw [if_neg (by rw [h12f]; simp)]]
          rw [show absInsE t1 x (y :: e :: rest) = y :: absInsE t1 x (e :: rest) from by
            simp only [absInsE, hy]
            rw [if_pos h21]]
          rw [show absInsE t1 x (e :: rest) = x :: e :: rest from by
            simp only [absInsE]
            rw [if_neg (by rw [he1f]; simp)]]

theorem absInsE_single_sub (t : Ticket) (v : Elem) :
    ∀ es : List Elem, [v].Sublist (absInsE t v es) := by
  intro es
  induction es with
  | nil => simp [absInsE]
  | cons e rest ih =>
    by_cases he : tafter (positionedAt e) t = true
    · rw [show absInsE t v (e :: rest) = e :: absInsE t v rest from by
        simp only [absInsE, he, if_pos]]
      exact ih.cons e
    · rw [show absInsE t v (e :: rest) = v :: e :: rest from by
        simp only [absInsE]
        rw [if_neg he]]
      exact (List.nil_sublist _).cons₂ v

/-- When `x` carries the later ordering ticket, inserting `x` first and `y`
second leaves `x` closer to the anchor: `x` precedes `y`. -/
theorem absInsE_pair_sub (t1 t2 : Ticket) (x y : Elem)
    (hx : positionedAt x = t1) (h12 : tafter t1 t2 = true) :
    ∀ es : List Elem, [x, y].Sublist (absInsE t2 y (absInsE t1 x es)) := by
  intro es
  induction es with
  | nil =>
    simp only [absInsE, hx]
    rw [if_pos h12]
  | cons e rest ih =>
    by_cases he1 : tafter (positionedAt e) t1 = true
    · have he2 : tafter (positionedAt e) t2 = true :=
        tafter_trans (positionedAt e) t1 t2 he1 h12
      rw [show absInsE t1 x (e :: rest) = e :: absInsE t1 x rest from by
        simp only [absInsE, he1, if_pos]]
      rw [show absInsE t2 y (e :: absInsE t1 x rest) =
          e :: absInsE t2 y (absInsE t1 x rest) from by
        simp only [absInsE, he2, if_pos]]
      exact ih.cons e
    · rw [show absInsE t1 x (e :: rest) = x :: e :: rest from by
        simp only [absInsE]
        rw [if_neg he1]]
      rw [show absInsE t2 y (x :: e :: rest) = x :: absInsE t2 y (e :: rest) from by
        simp only [absInsE, hx]
        rw [if_pos h12]]
      exact (absInsE_single_sub t2 y (e :: rest)).cons₂ x



theorem absInsE_eq_take_drop (t : Ticket) (v : Elem) :
    ∀ (es : List Elem) (k : Nat), k ≤ es.length →
    (∀ e ∈ es.take k, tafter (positionedAt e) t = true) →
    (∀ h : k < es.length, tafter (positionedAt (es.get ⟨k, h⟩)) t = false) →
    absInsE t v es = es.take k ++ v :: es.drop k := by
  intro es
  induction es with
  | nil =>
    intro k hk _ _
    have hk0 : k = 0 := Nat.le_zero.mp (by simpa using hk)
    subst hk0
    simp [absInsE]
  | cons e rest ih =>
    intro k hk htake hat
    cases k with
    | zero =>
      have h0 : tafter (positionedAt e) t = false := hat (by simp)
      simp only [absInsE]
      rw [if_neg (by rw [h0]; simp)]
      simp
    | succ k2 =>
      have he : tafter (positionedAt e) t = true :=
        htake e (by rw [List.take_succ_cons]; exact List.mem_cons_self _ _)
      simp only [absInsE, he, if_pos]
      rw [List.take_succ_cons, List.drop_succ_cons]
      rw [ih k2 (by simpa using hk)
        (fun e2 h2 => htake e2 (by rw [List.take_succ_cons]; exact List.mem_cons_of_mem _ h2))
        (fun h2 => hat (Nat.succ_lt_succ h2))]
      simp

theorem getD_concat_length (l : List Elem) (v d : Elem) :
    (l ++ [v]).getD l.length d = v := by
  induction l with
  | nil => rfl
  | cons x xs ih => simpa using ih

theorem getD_append_left (l l2 : List Elem) (i : Nat) (d : Elem) (hi : i < l.length) :
    (l ++ l2).getD i d = l.getD i d := by
  induction l generalizing i with
  | nil => simp at hi
  | cons x xs ih =>
    cases i with
    | zero => rfl
    | succ n =>
      simp only [List.cons_append, List.getD, List.getElem?_cons_succ]
      have := ih n (by simpa using hi)
      simpa [List.getD] using this

/-- The element-sequence effect of `insertAfter`: the suffix after the anchor
becomes the abstract placement-rule insertion of the new element. -/
theorem insertAfter_elems (a : RGATreeList) (tA t : Ticket) (v : Elem)
    (pre s : List Nat) (pA : Nat)
    (hlook : mapLookup a.byCreated tA = some pA)
    (ho : a.order = pre ++ pA :: s)
    (hnd : a.order.Nodup)
    (hbound : ∀ i ∈ a.order, i < a.arena.length) :
    ∃ a1 k, k ≤ s.length ∧ insertAfter a tA v t = .ok a1 ∧
      a1.arena = a.arena ++ [v] ∧
      a1.order = pre ++ pA :: (s.take k ++ a.arena.length :: s.drop k) ∧
      (s.take k ++ a.arena.length :: s.drop k).map (fun i => elemOf a1 i) =
        absInsE t v (s.map (fun i => elemOf a i)) ∧
      a1.byCreated = mapInsert a.byCreated v.createdAt a.arena.length := by
  have hnd2 := ho ▸ hnd
  rw [List.nodup_append] at hnd2
  obtain ⟨hndpre, hndsuf, hdisj⟩ := hnd2
  have hpre : pA ∉ pre := fun h => hdisj h (List.mem_cons_self _ _)
  have hsuf : suffixAfter a.order pA = s := by
    rw [ho]
    exact suffixAfter_append pre s pA hpre
  obtain ⟨k, hkle, htake, hat, hins⟩ := scan_insert_split a t a.arena.length s pA hndsuf
  refine ⟨_, k, hkle, insertAfter_spec a tA v t pA hlook, rfl, ?_, ?_, rfl⟩
  · show insertAfterId a.order (scanForward a t pA (suffixAfter a.order pA)) a.arena.length =
      pre ++ pA :: (s.take k ++ a.arena.length :: s.drop k)
    rw [hsuf]
    have hscanpre : scanForward a t pA s ∉ pre :=
      fun h => hdisj h (scanForward_mem a t s pA)
    rw [ho, insertAfterId_append pre (pA :: s) _ _ hscanpre, hins]
  · have hmem : ∀ i ∈ s, i < a.arena.length := by
      intro i hi
      exact hbound i (by rw [ho]; exact List.mem_append_right _ (List.mem_cons_of_mem _ hi))
    have hf : ∀ i ∈ s, (a.arena ++ [v]).getD i defaultElem = elemOf a i := by
      intro i hi
      exact getD_append_left a.arena [v] i defaultElem (hmem i hi)
    have habs : absInsE t v (s.map (fun i => elemOf a i)) =
        (s.map (fun i => elemOf a i)).take k ++ v :: (s.map (fun i => elemOf a i)).drop k := by
      refine absInsE_eq_take_drop t v _ k (by simpa using hkle) ?_ ?_
      · intro e2 h2
        rw [← List.map_take] at h2
        obtain ⟨i, hi, rfl⟩ := List.mem_map.mp h2
        exact htake i hi
      · intro h2
        have h3 : k < s.length := by simpa using h2
        have hget : (s.map (fun i => elemOf a i)).get ⟨k, h2⟩ = elemOf a (s.get ⟨k, h3⟩) :=
          List.get_map _
        rw [hget]
        exact hat h3
    rw [habs, ← List.map_take, ← List.map_drop, List.map_append, List.map_cons]
    congr 1
    · exact List.map_congr_left (fun i hi => hf i (List.mem_of_mem_take hi))
    · congr 1
      · show (a.arena ++ [v]).getD a.arena.length defaultElem = v
        exact getD_concat_length _ _ _
      · exact List.map_congr_left (fun i hi => hf i (List.mem_of_mem_drop hi))



theorem mapLookup_insert_ne (m : List (Ticket × Nat)) (c k : Ticket) (vI : Nat)
    (h : k ≠ c) : mapLookup (mapInsert m c vI) k = mapLookup m k := by
  simp only [mapInsert, mapLookup]
  rw [if_neg (fun e => h e.symm)]
  exact mapLookup_erase_ne m c k h

theorem elemOf_of_concat (a b : RGATreeList) (v : Elem) (h : b.arena = a.arena ++ [v])
    (i : Nat) (hi : i < a.arena.length) : elemOf b i = elemOf a i := by
  unfold elemOf
  rw [h]
  exact getD_append_left _ _ _ _ hi

theorem nodup_insert_mid (pre s : List Nat) (pA n : Nat) (k : Nat)
    (hnd : (pre ++ pA :: s).Nodup) (hn : n ∉ pre ++ pA :: s) :
    (pre ++ pA :: (s.take k ++ n :: s.drop k)).Nodup := by
  have hmid : (s.take k ++ n :: s.drop k).Perm (n :: s) := by
    have h1 : (s.take k ++ n :: s.drop k).Perm (n :: (s.take k ++ s.drop k)) :=
      List.perm_middle
    rw [List.take_append_drop] at h1
    exact h1
  have hperm : (pre ++ pA :: (s.take k ++ n :: s.drop k)).Perm (n :: (pre ++ pA :: s)) := by
    have h2 : (pre ++ pA :: (s.take k ++ n :: s.drop k)).Perm (pre ++ pA :: n :: s) :=
      List.Perm.append_left pre (List.Perm.cons pA hmid)
    have h3 : (pre ++ pA :: n :: s).Perm (pre ++ n :: pA :: s) :=
      List.Perm.append_left pre (List.Perm.swap _ _ _)
    have h4 : (pre ++ n :: pA :: s).Perm (n :: (pre ++ pA :: s)) := List.perm_middle
    exact (h2.trans h3).trans h4
  exact hperm.nodup_iff.mpr (List.nodup_cons.mpr ⟨hn, hnd⟩)

/-- C2: two `InsertAfter` operations anchored at the same existing
predecessor, inserting fresh elements `x` and `y` with distinct creation
tickets, commute: both application orders produce the same element sequence,
and in it `x` precedes `y` exactly when the ordering ticket of `x` is the
later one — the relative order is decided by the placement rule on the two
tickets alone, not by application order. -/
theorem insertAfter_comm (a : RGATreeList) (tA : Ticket) (x y : Elem)
    (pre s : List Nat) (pA : Nat)
    (hlook : mapLookup a.byCreated tA = some pA)
    (ho : a.order = pre ++ pA :: s)
    (hnd : a.order.Nodup)
    (hbound : ∀ i ∈ a.order, i < a.arena.length)
    (hxfresh : ∀ q ∈ a.byCreated, q.1 ≠ x.createdAt)
    (hyfresh : ∀ q ∈ a.byCreated, q.1 ≠ y.createdAt)
    (hmx : x.movedAt = none)
    (hmy : y.movedAt = none)
    (hxy : x.createdAt ≠ y.createdAt) :
    ∃ a2 b2, (a.InsertAfter tA x).bind (fun a1 => a1.InsertAfter tA y) = .ok a2 ∧
      (a.InsertAfter tA y).bind (fun b1 => b1.InsertAfter tA x) = .ok b2 ∧
      listElems a2 = listElems b2 ∧
      (if tafter x.createdAt y.createdAt = true
       then [x, y].Sublist (listElems a2)
       else [y, x].Sublist (listElems a2)) := by
  have hposx : positionedAt x = x.createdAt := by
    unfold positionedAt
    rw [hmx]
  have hposy : positionedAt y = y.createdAt := by
    unfold positionedAt
    rw [hmy]
  have htax : tA ≠ x.createdAt := hxfresh (tA, pA) (mapLookup_mem _ _ _ hlook)
  have htay : tA ≠ y.createdAt := hyfresh (tA, pA) (mapLookup_mem _ _ _ hlook)
  have hNnot : a.arena.length ∉ a.order := fun h => absurd (hbound _ h) (by omega)
  -- generic second-step facts for a state reached by one insertion
  have hstep : ∀ (a1 : RGATreeList) (k : Nat) (v : Elem),
      a1.arena = a.arena ++ [v] →
      a1.order = pre ++ pA :: (s.take k ++ a.arena.length :: s.drop k) →
      a1.byCreated = mapInsert a.byCreated v.createdAt a.arena.length →
      tA ≠ v.createdAt →
      mapLookup a1.byCreated tA = some pA ∧ a1.order.Nodup ∧
        (∀ i ∈ a1.order, i < a1.arena.length) := by
    intro a1 k v harena horder hmap htav
    refine ⟨?_, ?_, ?_⟩
    · rw [hmap]
      rw [mapLookup_insert_ne _ _ _ _ htav]
      exact hlook
    · rw [horder]
      exact nodup_insert_mid pre s pA a.arena.length k (ho ▸ hnd) (ho ▸ hNnot)
    · intro i hi
      rw [horder] at hi
      rw [harena, List.length_append]
      simp only [List.mem_append, List.mem_cons] at hi
      rcases hi with h1 | h2 | h4 | h6 | h7
      · have := hbound i (by rw [ho]; exact List.mem_append_left _ h1)
        omega
      · have := hbound i (by rw [ho]; rw [h2]; exact List.mem_append_right _ (List.mem_cons_self _ _))
        omega
      · have := hbound i (by
          rw [ho]
          exact List.mem_append_right _ (List.mem_cons_of_mem _ (List.mem_of_mem_take h4)))
        omega
      · rw [h6]
        simp
      · have := hbound i (by
          rw [ho]
          exact List.mem_append_right _ (List.mem_cons_of_mem _ (List.mem_of_mem_drop h7)))
        omega
  -- x then y
  obtain ⟨a1, k1, hk1, heq1, harena1, horder1, hmap1, hmapc1⟩ :=
    insertAfter_elems a tA x.createdAt x pre s pA hlook ho hnd hbound
  obtain ⟨hlook1, hnd1, hbound1⟩ := hstep a1 k1 x harena1 horder1 hmapc1 htax
  obtain ⟨a2, k2, hk2, heq2, harena2, horder2, hmap2, hmapc2⟩ :=
    insertAfter_elems a1 tA y.createdAt y pre
      (s.take k1 ++ a.arena.length :: s.drop k1) pA hlook1 horder1 hnd1 hbound1
  -- y then x
  obtain ⟨b1, j1, hj1, heq3, harena3, horder3, hmap3, hmapc3⟩ :=
    insertAfter_elems a tA y.createdAt y pre s pA hlook ho hnd hbound
  obtain ⟨hlook3, hnd3, hbound3⟩ := hstep b1 j1 y harena3 horder3 hmapc3 htay
  obtain ⟨b2, j2, hj2, heq4, harena4, horder4, hmap4, hmapc4⟩ :=
    insertAfter_elems b1 tA x.createdAt x pre
      (s.take j1 ++ a.arena.length :: s.drop j1) pA hlook3 horder3 hnd3 hbound3
  -- element sequences
  have hpreElems : ∀ (c2 c1 : RGATreeList) (v1 v2 : Elem),
      c1.arena = a.arena ++ [v1] → c2.arena = c1.arena ++ [v2] →
      ∀ i ∈ a.order, elemOf c2 i = elemOf a i := by
    intro c2 c1 v1 v2 h1 h2 i hi
    have hia : i < a.arena.length := hbound i hi
    rw [elemOf_of_concat c1 c2 v2 h2 i (by rw [h1, List.length_append]; omega)]
    exact elemOf_of_concat a c1 v1 h1 i hia
  have hElems : ∀ (c2 c1 : RGATreeList) (v1 v2 : Elem) (kk : Nat) (ss2 : List Nat),
      c1.arena = a.arena ++ [v1] → c2.arena = c1.arena ++ [v2] →
      c2.order = pre ++ pA :: ss2 →
      ss2.map (fun i => elemOf c2 i) =
        absInsE v2.createdAt v2 (absInsE v1.createdAt v1 (s.map (fun i => elemOf a i))) →
      kk = kk →
      listElems c2 = pre.map (fun i => elemOf a i) ++ elemOf a pA ::
        absInsE v2.createdAt v2 (absInsE v1.createdAt v1 (s.map (fun i => elemOf a i))) := by
    intro c2 c1 v1 v2 kk ss2 h1 h2 hord hmap _
    unfold listElems
    rw [hord, List.map_append, List.map_cons, hmap]
    congr 1
    · refine List.map_congr_left (fun i hi => ?_)
      exact hpreElems c2 c1 v1 v2 h1 h2 i (by rw [ho]; exact List.mem_append_left _ hi)
    · congr 1
      exact hpreElems c2 c1 v1 v2 h1 h2 pA
        (by rw [ho]; exact List.mem_append_right _ (List.mem_cons_self _ _))
  have hmap2E : (((s.take k1 ++ a.arena.length :: s.drop k1).take k2 ++
      a1.arena.length :: (s.take k1 ++ a.arena.length :: s.drop k1).drop k2).map
        (fun i => elemOf a2 i)) =
      absInsE y.createdAt y (absInsE x.createdAt x (s.map (fun i => elemOf a i))) := by
    rw [hmap2, hmap1]
  have hmap4E : (((s.take j1 ++ a.arena.length :: s.drop j1).take j2 ++
      b1.arena.length :: (s.take j1 ++ a.arena.length :: s.drop j1).drop j2).map
        (fun i => elemOf b2 i)) =
      absInsE x.createdAt x (absInsE y.createdAt y (s.map (fun i => elemOf a i))) := by
    rw [hmap4, hmap3]
  have hE2 := hElems a2 a1 x y k2 _ harena1 harena2 horder2 hmap2E rfl
  have hE4 := hElems b2 b1 y x j2 _ harena3 harena4 horder4 hmap4E rfl
  have hcomm := absInsE_comm x.createdAt y.createdAt x y hposx hposy hxy
    (s.map (fun i => elemOf a i))
  refine ⟨a2, b2, ?_, ?_, ?_, ?_⟩
  · show Except.bind (a.InsertAfter tA x) (fun a1 => a1.InsertAfter tA y) = .ok a2
    rw [show a.InsertAfter tA x = .ok a1 from heq1]
    show a1.InsertAfter tA y = .ok a2
    exact heq2
  · show Except.bind (a.InsertAfter tA y) (fun b1 => b1.InsertAfter tA x) = .ok b2
    rw [show a.InsertAfter tA y = .ok b1 from heq3]
    show b1.InsertAfter tA x = .ok b2
    exact heq4
  · rw [hE2, hE4, hcomm]
  · by_cases h12 : tafter x.createdAt y.createdAt = true
    · rw [if_pos h12, hE2]
      have hpair := absInsE_pair_sub x.createdAt y.createdAt x y hposx h12
        (s.map (fun i => elemOf a i))
      exact (hpair.cons _).trans (List.sublist_append_right _ _)
    · rw [if_neg h12, hE2, hcomm]
      have h21 : tafter y.createdAt x.createdAt = true :=
        tafter_asymm x.createdAt y.createdAt hxy (Bool.not_eq_true _ ▸ h12)
      have hpair := absInsE_pair_sub y.createdAt x.createdAt y x hposy h21
        (s.map (fun i => elemOf a i))
      exact (hpair.cons _).trans (List.sublist_append_right _ _)

/-- Witness for C2 at `sample1`: inserting elements with creation tickets 3
and 4 after the node with creation ticket 1, in both orders. -/
theorem insertAfter_comm_witness :
    ∃ a2 b2,
      (sample1.InsertAfter 1 { value := 10, createdAt := 3, removedAt := none, movedAt := none }).bind
        (fun a1 => a1.InsertAfter 1
          { value := 11, createdAt := 4, removedAt := none, movedAt := none }) = .ok a2 ∧
      (sample1.InsertAfter 1 { value := 11, createdAt := 4, removedAt := none, movedAt := none }).bind
        (fun b1 => b1.InsertAfter 1
          { value := 10, createdAt := 3, removedAt := none, movedAt := none }) = .ok b2 ∧
      listElems a2 = listElems b2 ∧
      (if tafter 3 4 = true
       then [{ value := 10, createdAt := 3, removedAt := none, movedAt := none },
             { value := 11, createdAt := 4, removedAt := none, movedAt := none }].Sublist (listElems a2)
       else [{ value := 11, createdAt := 4, removedAt := none, movedAt := none },
             { value := 10, createdAt := 3, removedAt := none, movedAt := none }].Sublist (listElems a2)) :=
  insertAfter_comm sample1 1
    { value := 10, createdAt := 3, removedAt := none, movedAt := none }
    { value := 11, createdAt := 4, removedAt := none, movedAt := none }
    [0] [] 1 (by decide) (by decide) (by decide) (by decide) (by decide) (by decide)
    (by decide) (by decide) (by decide)

theorem mapAcc_append (l1 l2 : List Elem) :
    ∀ (i : Nat) (acc : List (Ticket × Nat)),
    mapAcc (l1 ++ l2) i acc = mapAcc l2 (i + l1.length) (mapAcc l1 i acc) := by
  induction l1 with
  | nil => intro i acc; simp [mapAcc]
  | cons e rest ih =>
    intro i acc
    simp only [List.cons_append, mapAcc, List.append_eq]
    rw [ih (i + 1) ((e.createdAt, i) :: acc)]
    congr 1
    simp
    omega

theorem mapAcc_concat (l : List Elem) (e : Elem) (i : Nat) (acc : List (Ticket × Nat)) :
    mapAcc (l ++ [e]) i acc = (e.createdAt, i + l.length) :: mapAcc l i acc := by
  rw [mapAcc_append l [e] i acc]
  rfl

theorem mapAcc_keys (c : Ticket) : ∀ (l : List Elem) (i : Nat) (acc : List (Ticket × Nat)),
    (∀ e ∈ l, e.createdAt ≠ c) → (∀ q ∈ acc, q.1 ≠ c) →
    ∀ q ∈ mapAcc l i acc, q.1 ≠ c := by
  intro l
  induction l with
  | nil => intro i acc _ hacc q hq; exact hacc q hq
  | cons e rest ih =>
    intro i acc hl hacc q hq
    refine ih (i + 1) ((e.createdAt, i) :: acc)
      (fun e2 h2 => hl e2 (List.mem_cons_of_mem _ h2)) ?_ q hq
    intro q2 hq2
    cases List.mem_cons.mp hq2 with
    | inl h => rw [h]; exact hl e (List.mem_cons_self _ _)
    | inr h => exact hacc q2 h

theorem mapErase_of_fresh (m : List (Ticket × Nat)) (c : Ticket)
    (h : ∀ q ∈ m, q.1 ≠ c) : mapErase m c = m := by
  unfold mapErase
  apply List.filter_eq_self.mpr
  intro q hq
  simpa using h q hq

/-- One `Add` of a fresh element extends the canonical state by one node at
the tail. -/
theorem add_canonical (pre : List Elem) (e : Elem)
    (hfresh : ∀ q ∈ mapAcc pre 1 [(initialTicket, 0)], q.1 ≠ e.createdAt) :
    (canonical pre).Add e = .ok (canonical (pre ++ [e])) := by
  have hlookLast : mapLookup (canonical pre).byCreated
      (elemOf (canonical pre) (canonical pre).lastId).createdAt = some pre.length := by
    rcases List.eq_nil_or_concat pre with rfl | ⟨p2, laste, hconcat⟩
    · show mapLookup [(initialTicket, 0)] (elemOf (canonical []) 0).createdAt = some 0
      rfl
    · rw [List.concat_eq_append] at hconcat
      subst hconcat
      show mapLookup (mapAcc (p2 ++ [laste]) 1 [(initialTicket, 0)])
        (elemOf (canonical (p2 ++ [laste])) (p2 ++ [laste]).length).createdAt =
        some (p2 ++ [laste]).length
      rw [mapAcc_concat]
      have helem : elemOf (canonical (p2 ++ [laste])) (p2 ++ [laste]).length = laste := by
        show (sentinelElem :: (p2 ++ [laste])).getD (p2 ++ [laste]).length defaultElem = laste
        have : (sentinelElem :: (p2 ++ [laste])).getD (p2.length + 1) defaultElem =
            (p2 ++ [laste]).getD p2.length defaultElem := rfl
        rw [show (p2 ++ [laste]).length = p2.length + 1 from by simp, this]
        exact getD_concat_length p2 laste defaultElem
      rw [helem]
      show (if laste.createdAt = laste.createdAt then some (1 + p2.length) else _) = _
      rw [if_pos rfl]
      simp
      omega
  have hsuffix : suffixAfter (canonical pre).order pre.length = [] := by
    show suffixAfter (List.range (pre.length + 1)) pre.length = []
    rw [List.range_succ]
    exact suffixAfter_append (List.range pre.length) [] pre.length
      (by exact List.not_mem_range_self)
  have hspec := insertAfter_spec (canonical pre)
    (elemOf (canonical pre) (canonical pre).lastId).createdAt e e.createdAt
    pre.length hlookLast
  show insertAfter (canonical pre)
    (elemOf (canonical pre) (canonical pre).lastId).createdAt e e.createdAt = _
  rw [hspec]
  congr 1
  have hscan : scanForward (canonical pre) e.createdAt pre.length
      (suffixAfter (canonical pre).order pre.length) = pre.length := by
    rw [hsuffix]
    rfl
  have harena : (canonical pre).arena.length = pre.length + 1 := by
    show (sentinelElem :: pre).length = pre.length + 1
    simp
  refine RGATreeList.ext ?_ ?_ ?_ ?_ ?_
  · show (canonical pre).arena ++ [e] = (canonical (pre ++ [e])).arena
    show (sentinelElem :: pre) ++ [e] = sentinelElem :: (pre ++ [e])
    simp
  · show insertAfterId (canonical pre).order
      (scanForward (canonical pre) e.createdAt pre.length
        (suffixAfter (canonical pre).order pre.length)) (canonical pre).arena.length =
      (canonical (pre ++ [e])).order
    rw [hscan, harena]
    show insertAfterId (List.range (pre.length + 1)) pre.length (pre.length + 1) =
      List.range ((pre ++ [e]).length + 1)
    rw [List.range_succ]
    rw [insertAfterId_append (List.range pre.length) [pre.length] pre.length (pre.length + 1)
      (by exact List.not_mem_range_self)]
    rw [show insertAfterId [pre.length] pre.length (pre.length + 1) =
      [pre.length, pre.length + 1] from by simp [insertAfterId]]
    rw [show (pre ++ [e]).length = pre.length + 1 from by simp]
    rw [List.range_succ, List.range_succ]
    simp
  · show (if scanForward (canonical pre) e.createdAt pre.length
        (suffixAfter (canonical pre).order pre.length) = (canonical pre).lastId
      then (canonical pre).arena.length else (canonical pre).lastId) =
      (canonical (pre ++ [e])).lastId
    rw [hscan, harena]
    show (if pre.length = pre.length then pre.length + 1 else pre.length) =
      (pre ++ [e]).length
    rw [if_pos rfl]
    simp
  · show (canonical pre).size + 1 = (canonical (pre ++ [e])).size
    show (pre.length : Int) + 1 = ((pre ++ [e]).length : Int)
    simp
  · show mapInsert (canonical pre).byCreated e.createdAt (canonical pre).arena.length =
      (canonical (pre ++ [e])).byCreated
    rw [harena]
    show (e.createdAt, pre.length + 1) ::
        mapErase (mapAcc pre 1 [(initialTicket, 0)]) e.createdAt =
      mapAcc (pre ++ [e]) 1 [(initialTicket, 0)]
    rw [mapErase_of_fresh _ _ hfresh, mapAcc_concat]
    rw [show 1 + pre.length = pre.length + 1 from by omega]



theorem addAll_canonical : ∀ (suf pre : List Elem),
    ((pre ++ suf).map Elem.createdAt).Nodup →
    (∀ e2 ∈ suf, e2.createdAt ≠ initialTicket) →
    addAll (canonical pre) suf = .ok (canonical (pre ++ suf)) := by
  intro suf
  induction suf with
  | nil =>
    intro pre _ _
    simp [addAll]
  | cons e rest ih =>
    intro pre hnd h0
    have hdisj : ∀ x ∈ pre.map Elem.createdAt, x ∉ (e :: rest).map Elem.createdAt := by
      rw [List.map_append, List.nodup_append] at hnd
      exact fun x hx hx2 => hnd.2.2 hx hx2
    have hfresh : ∀ q ∈ mapAcc pre 1 [(initialTicket, 0)], q.1 ≠ e.createdAt := by
      apply mapAcc_keys
      · intro e2 h2 hceq
        exact hdisj e2.createdAt (List.mem_map_of_mem _ h2)
          (by rw [hceq]; exact List.mem_map_of_mem _ (List.mem_cons_self _ _))
      · intro q hq
        have : q = (initialTicket, 0) := by simpa using hq
        rw [this]
        exact fun h => (h0 e (List.mem_cons_self _ _)) h.symm
    show ((canonical pre).Add e).bind (fun a2 => addAll a2 rest) = _
    rw [add_canonical pre e hfresh]
    show addAll (canonical (pre ++ [e])) rest = .ok (canonical (pre ++ e :: rest))
    rw [show pre ++ e :: rest = (pre ++ [e]) ++ rest from by simp]
    exact ih (pre ++ [e])
      (by rw [show (pre ++ [e]) ++ rest = pre ++ e :: rest from by simp]; exact hnd)
      (fun e2 h2 => h0 e2 (List.mem_cons_of_mem _ h2))

theorem findByIdx_allLive (a : RGATreeList) : ∀ (ids : List Nat) (idx : Nat),
    (∀ i ∈ ids, isRemoved (elemOf a i) = false) → 1 ≤ idx → idx ≤ ids.length →
    findByIdx a ids idx = (ids.getD (idx - 1) 0, 1) := by
  intro ids
  induction ids with
  | nil =>
    intro idx _ h1 h2
    simp at h2
    omega
  | cons x xs ih =>
    intro idx hlive h1 h2
    have hx : isRemoved (elemOf a x) = false := hlive x (List.mem_cons_self _ _)
    cases xs with
    | nil =>
      have hidx : idx = 1 := by
        simp at h2
        omega
      subst hidx
      simp [findByIdx]
    | cons y rest =>
      simp only [findByIdx, hx, Bool.false_eq_true, if_false]
      by_cases hle : idx ≤ 1
      · have hidx : idx = 1 := by omega
        subst hidx
        rw [if_pos (by omega)]
        simp [List.getD]
      · rw [if_neg hle]
        rw [ih (idx - 1) (fun i hi => hlive i (List.mem_cons_of_mem _ hi)) (by omega)
          (by simp at h2 ⊢; omega)]
        rw [show idx - 1 = (idx - 1 - 1) + 1 from by omega]
        rfl

theorem elemOf_canonical_succ (es : List Elem) (m : Nat) :
    elemOf (canonical es) (m + 1) = es.getD m defaultElem := rfl

theorem elemOf_canonical_zero (es : List Elem) :
    elemOf (canonical es) 0 = sentinelElem := rfl

theorem canonical_live (es : List Elem) (hlive : ∀ e2 ∈ es, e2.removedAt = none) :
    ∀ j ∈ (List.range es.length).map Nat.succ,
      isRemoved (elemOf (canonical es) j) = false := by
  intro j hj
  obtain ⟨m, hm, rfl⟩ := List.mem_map.mp hj
  have hmn : m < es.length := List.mem_range.mp hm
  show isRemoved (elemOf (canonical es) (m + 1)) = false
  rw [elemOf_canonical_succ, List.getD_eq_getElem es defaultElem hmn]
  unfold isRemoved
  rw [hlive _ (es.getElem_mem hmn)]
  rfl

theorem get_canonical (es : List Elem) (hlive : ∀ e2 ∈ es, e2.removedAt = none)
    (i : Nat) (hi : i < es.length) :
    (canonical es).Get i = some (i + 1) := by
  have hlive2 := canonical_live es hlive
  have horder : (canonical es).order = 0 :: (List.range es.length).map Nat.succ :=
    List.range_succ_eq_map es.length
  obtain ⟨k, hk⟩ : ∃ k, es.length = k + 1 := ⟨es.length - 1, by omega⟩
  have hids : (List.range es.length).map Nat.succ =
      1 :: ((List.range k).map Nat.succ).map Nat.succ := by
    rw [hk, List.range_succ_eq_map, List.map_cons, List.map_map]
  by_cases hz : i = 0
  · subst hz
    have hfind : findByIdx (canonical es) (canonical es).order 0 = (0, 0) := by
      rw [horder, hids]
      simp only [findByIdx]
      rw [if_pos (by
        rw [show isRemoved (elemOf (canonical es) 0) = true from rfl]
        simp)]
    have hsuf : suffixAfter (canonical es).order 0 =
        (List.range es.length).map Nat.succ := by
      rw [horder]
      simp [suffixAfter]
    have hnl : nextLive (canonical es) ((List.range es.length).map Nat.succ) = some 1 := by
      rw [hids]
      simp only [nextLive]
      rw [if_neg (by
        rw [hlive2 1 (by rw [hids]; exact List.mem_cons_self _ _)]
        simp)]
    simp only [RGATreeList.Get, hfind, hsuf, hnl]
    rfl
  · have h1 : 1 ≤ i := by omega
    have hfind : findByIdx (canonical es) (canonical es).order i = (i, 1) := by
      rw [horder, hids]
      simp only [findByIdx]
      rw [if_neg (by
        rw [show isRemoved (elemOf (canonical es) 0) = true from rfl]
        simp
        omega)]
      rw [show isRemoved (elemOf (canonical es) 0) = true from rfl]
      rw [← hids]
      have := findByIdx_allLive (canonical es) ((List.range es.length).map Nat.succ) i
        hlive2 h1 (by simp; omega)
      rw [show (if (true : Bool) = true then (0 : Nat) else 1) = 0 from rfl]
      rw [show i - 0 = i from by omega]
      rw [this]
      have hgd : ((List.range es.length).map Nat.succ).getD (i - 1) 0 = i := by
        have hlt : i - 1 < ((List.range es.length).map Nat.succ).length := by simp; omega
        rw [List.getD_eq_getElem _ _ hlt]
        rw [List.getElem_map]
        rw [List.getElem_range]
        omega
      rw [hgd]
    have hsplit : (canonical es).order = List.range i ++ i ::
        ((List.range (es.length - i)).map (fun m => (i + 1) + m)) := by
      show List.range (es.length + 1) = _
      rw [show es.length + 1 = (i + 1) + (es.length - i) from by omega]
      rw [List.range_add]
      rw [List.range_succ]
      simp [List.append_assoc]
    have hsuf : suffixAfter (canonical es).order i =
        (List.range (es.length - i)).map (fun m => (i + 1) + m) := by
      rw [hsplit]
      exact suffixAfter_append _ _ _ List.not_mem_range_self
    obtain ⟨k2, hk2⟩ : ∃ k2, es.length - i = k2 + 1 := ⟨es.length - i - 1, by omega⟩
    have htail : (List.range (es.length - i)).map (fun m => (i + 1) + m) =
        (i + 1) :: ((List.range k2).map Nat.succ).map (fun m => (i + 1) + m) := by
      rw [hk2, List.range_succ_eq_map, List.map_cons, List.map_map]
    have hnl : nextLive (canonical es)
        ((List.range (es.length - i)).map (fun m => (i + 1) + m)) = some (i + 1) := by
      rw [htail]
      simp only [nextLive]
      rw [if_neg (by
        rw [hlive2 (i + 1) (List.mem_map.mpr ⟨i, List.mem_range.mpr hi, rfl⟩)]
        simp)]
    simp only [RGATreeList.Get, hfind, hsuf, hnl]
    rw [if_neg (fun hc => hz hc.1)]
    rw [if_pos (by omega)]

/-- C8: starting from a fresh list, a sequence of `Add` calls of fresh live
elements with pairwise distinct creation tickets succeeds, leaves `Len()`
equal to the number of elements, and `Get(i)` returns the node wrapping the
i-th added element, for every index. -/
theorem addAll_get_len (es : List Elem)
    (hnd : (es.map Elem.createdAt).Nodup)
    (h0 : ∀ e2 ∈ es, e2.createdAt ≠ initialTicket)
    (hlive : ∀ e2 ∈ es, e2.removedAt = none) :
    ∃ a, addAll NewRGATreeList es = .ok a ∧ a.Len = (es.length : Int) ∧
      ∀ i, i < es.length →
        ∃ id, a.Get i = some id ∧ elemOf a id = es.getD i defaultElem := by
  have hcan : canonical [] = NewRGATreeList := rfl
  have hall := addAll_canonical es [] (by simpa using hnd) h0
  rw [List.nil_append, hcan] at hall
  refine ⟨canonical es, hall, rfl, ?_⟩
  intro i hi
  exact ⟨i + 1, get_canonical es hlive i hi, elemOf_canonical_succ es i⟩

/-- Witness for C8: adding two fresh elements with tickets 1 and 2 to a fresh
list. -/
theorem addAll_get_len_witness :
    ∃ a, addAll NewRGATreeList [sampleElem1, sampleElem2] = .ok a ∧
      a.Len = (([sampleElem1, sampleElem2] : List Elem).length : Int) ∧
      ∀ i, i < ([sampleElem1, sampleElem2] : List Elem).length →
        ∃ id, a.Get i = some id ∧
          elemOf a id = [sampleElem1, sampleElem2].getD i defaultElem :=
  addAll_get_len [sampleElem1, sampleElem2] (by decide) (by decide) (by decide)

end Yorkie
